import Mathlib

/-!
# Animation cross-fade viewer (`src/js/mail.js`)

A shallow embedding of the animation part of `mail.js`: the registry `actions`, the
module variable `activeAction`, the load callback of `loadAnimations`, `fadeToAction`,
`onKeyDown` and the mixer update performed by `animate`.

Objects of the animation library are values in a heap held by the mixer; a reference to an
action is its index in that heap.  The registry is a plain object: a read `actions[name]`
finds the object's own property, or else the member of `Object.prototype` of that name, and
a call that meets such a member raises a `TypeError` after the assignments made so far.  Numbers are rationals: `0.25` is `1/4`, and the
floating-point rounding of the library's arithmetic is not represented.

The state starts when the model's load callback has created the mixer (line 98).  Before
that moment `actions` is empty, so `fadeToAction` returns at once, and `animate` skips the
mixer; nothing of the animation state exists yet.
-/

namespace Mail

/-! ## Configuration -/

/-- The constant `animationAssets` (lines 13-20). -/
def animationAssets : List String :=
  ["Texting While Standing", "Swimming", "Chapa-Giratoria", "Kneeling Pointing", "Taunt",
    "Silly Dancing"]

/-- The lines of the on-screen help written by `init` (lines 39-47): the number shown and the
name beside it. -/
def instructions : List (Nat × String) :=
  [(1, "Texting While Standing"), (2, "Swimming"), (3, "Chapa-Giratoria"),
    (4, "Kneeling Pointing"), (5, "Taunt"), (6, "Silly Dancing")]

/-! ## The animation library's objects -/

/-- An animation clip as parsed from a file. -/
structure Clip where
  name : String
deriving DecidableEq

/-- The object handed to a load callback; the callback reads `fbx.animations[0]`. -/
structure FBX where
  animations : List Clip
deriving DecidableEq

/-- The methods of an action that `mail.js` calls. -/
inductive Call where
  | play
  | reset
  | setEffectiveTimeScale (timeScale : ℚ)
  | setEffectiveWeight (weight : ℚ)
  | fadeIn (duration : ℚ)
  | fadeOut (duration : ℚ)
deriving DecidableEq

/-- Modelled from the spec: the two-point weight ramp that the animation library (three.js,
not under src/) attaches to an action for a fade: value `v0` at time `t0`, value `v1` at
time `t1`. -/
structure Interpolant where
  t0 : ℚ
  v0 : ℚ
  t1 : ℚ
  v1 : ℚ
deriving DecidableEq

/-- Modelled from the spec: the library's `AnimationAction` (three.js, not under src/), with
the fields that fading and playing touch.  `scheduled` says that the action is in the
mixer's list of running actions (it has been played and not stopped).  `calls` is a record
of the method calls `mail.js` has made on the action, oldest first; the library keeps no
such record, it is here so that statements can speak of what an action received. -/
structure AnimationAction where
  clip : Clip
  paused : Bool
  enabled : Bool
  timeScale : ℚ
  effectiveTimeScale : ℚ
  weight : ℚ
  effectiveWeight : ℚ
  weightInterpolant : Option Interpolant
  scheduled : Bool
  calls : List Call
deriving DecidableEq

/-- Modelled from the spec: the library's `AnimationMixer` (three.js, not under src/): its
clock and every action it has created, in creation order. -/
structure AnimationMixer where
  time : ℚ
  allActions : List AnimationAction
deriving DecidableEq

/-- Modelled from the spec: the value of a fade ramp at time `t` (the library's linear
interpolant, not under src/): the first value before the ramp, the last value from its end
on, and the straight line in between. -/
def Interpolant.evaluate (i : Interpolant) (t : ℚ) : ℚ :=
  if t < i.t0 then i.v0
  else if i.t1 ≤ t then i.v1
  else
    let weight1 := (t - i.t0) / (i.t1 - i.t0)
    let weight0 := 1 - weight1
    i.v0 * weight0 + i.v1 * weight1

namespace AnimationAction

/-- Modelled from the spec: the action `mixer.clipAction(clip)` creates (library code, not
under src/): enabled, not paused, weight and time scale 1, no fade, not yet played. -/
def create (clip : Clip) : AnimationAction :=
  { clip := clip, paused := false, enabled := true, timeScale := 1, effectiveTimeScale := 1,
    weight := 1, effectiveWeight := 1, weightInterpolant := none, scheduled := false,
    calls := [] }

/-- Modelled from the spec: `stopFading()` of the library (not under src/) drops the ramp. -/
def stopFading (a : AnimationAction) : AnimationAction :=
  { a with weightInterpolant := none }

/-- Modelled from the spec: `play()` of the library (not under src/) puts the action among
the mixer's running actions. -/
def play (a : AnimationAction) : AnimationAction :=
  { a with scheduled := true }

/-- Modelled from the spec: `reset()` of the library (not under src/): un-pause, enable,
rewind, and drop any fade. -/
def reset (a : AnimationAction) : AnimationAction :=
  { a with paused := false, enabled := true }.stopFading

/-- Modelled from the spec: `setEffectiveTimeScale(ts)` of the library (not under src/). -/
def setEffectiveTimeScale (a : AnimationAction) (timeScale : ℚ) : AnimationAction :=
  { a with timeScale := timeScale, effectiveTimeScale := if a.paused then 0 else timeScale }

/-- Modelled from the spec: `setEffectiveWeight(w)` of the library (not under src/): sets the
weight and drops any fade. -/
def setEffectiveWeight (a : AnimationAction) (weight : ℚ) : AnimationAction :=
  { a with weight := weight, effectiveWeight := if a.enabled then weight else 0 }.stopFading

/-- Modelled from the spec: the library's fade scheduling (not under src/): a ramp from
`weightNow` at the mixer's current time to `weightThen` after `duration`, replacing any ramp
the action had. -/
def scheduleFading (a : AnimationAction) (now duration weightNow weightThen : ℚ) :
    AnimationAction :=
  { a with weightInterpolant := some ⟨now, weightNow, now + duration, weightThen⟩ }

/-- Modelled from the spec: `fadeIn(d)` of the library (not under src/): ramp 0 to 1. -/
def fadeIn (a : AnimationAction) (now duration : ℚ) : AnimationAction :=
  a.scheduleFading now duration 0 1

/-- Modelled from the spec: `fadeOut(d)` of the library (not under src/): ramp 1 to 0. -/
def fadeOut (a : AnimationAction) (now duration : ℚ) : AnimationAction :=
  a.scheduleFading now duration 1 0

/-- Modelled from the spec: the weight part of the library's per-frame update (not under
src/).  A disabled action has effective weight 0.  An enabled one has its weight times the
ramp's value; once the mixer's time has passed the end of the ramp the ramp is dropped, and
the action is disabled when the ramp ended at 0. -/
def updateWeight (a : AnimationAction) (time : ℚ) : AnimationAction :=
  if a.enabled then
    match a.weightInterpolant with
    | none => { a with effectiveWeight := a.weight }
    | some i =>
      let interpolantValue := i.evaluate time
      if time > i.t1 then
        { a with
          weightInterpolant := none
          enabled := !(decide (interpolantValue = 0))
          effectiveWeight := a.weight * interpolantValue }
      else { a with effectiveWeight := a.weight * interpolantValue }
  else { a with effectiveWeight := 0 }

/-- Modelled from the spec: the time-scale part of the library's per-frame update (not under
src/). -/
def updateTimeScale (a : AnimationAction) : AnimationAction :=
  { a with effectiveTimeScale := if a.paused then 0 else a.timeScale }

/-- Modelled from the spec: the library's per-frame update of one running action (not under
src/); the position inside the clip is not represented. -/
def update (a : AnimationAction) (time : ℚ) : AnimationAction :=
  if a.enabled then a.updateTimeScale.updateWeight time else a.updateWeight time

/-- The effect of one method call on an action, at mixer time `now`, recorded in `calls`. -/
def perform (a : AnimationAction) (now : ℚ) (c : Call) : AnimationAction :=
  let b :=
    match c with
    | .play => a.play
    | .reset => a.reset
    | .setEffectiveTimeScale ts => a.setEffectiveTimeScale ts
    | .setEffectiveWeight w => a.setEffectiveWeight w
    | .fadeIn d => a.fadeIn now d
    | .fadeOut d => a.fadeOut now d
  { b with calls := a.calls ++ [c] }

end AnimationAction

/-- Apply `f` to the element at position `i`; a list without that position is unchanged. -/
def modifyAt {α : Type} (f : α → α) : List α → Nat → List α
  | [], _ => []
  | x :: xs, 0 => f x :: xs
  | x :: xs, i + 1 => x :: modifyAt f xs i

namespace AnimationMixer

/-- Modelled from the spec: `mixer.clipAction(clip)` of the library (not under src/).  Every
load parses a fresh clip object, so the call creates a new action; the result is the
reference to it and the mixer holding it. -/
def clipAction (m : AnimationMixer) (clip : Clip) : Nat × AnimationMixer :=
  (m.allActions.length, { m with allActions := m.allActions ++ [AnimationAction.create clip] })

/-- Modelled from the spec: `mixer.update(delta)` of the library (not under src/): advance the
clock, then update every running action at the new time. -/
def update (m : AnimationMixer) (deltaTime : ℚ) : AnimationMixer :=
  let time := m.time + deltaTime
  { time := time
    allActions := m.allActions.map fun a => if a.scheduled then a.update time else a }

end AnimationMixer

/-! ## The module state of `mail.js` -/

/-- A value that `actions[name]` yields and `activeAction` holds, besides `undefined`: an
action, or the member of `Object.prototype` that a name inherits (a function; for
`__proto__` the prototype object).  Two such members are the same object exactly when the
names are the same. -/
inductive Value where
  | action (ref : Nat)
  | inherited (name : String)
deriving DecidableEq

/-- The property names every plain object inherits from `Object.prototype`. -/
def objectPrototypeKeys : List String :=
  ["constructor", "hasOwnProperty", "isPrototypeOf", "propertyIsEnumerable", "toLocaleString",
    "toString", "valueOf", "__defineGetter__", "__defineSetter__", "__lookupGetter__",
    "__lookupSetter__", "__proto__"]

/-- The animation state: `mixer`, `activeAction` (absent while undefined) and the registry
`actions` (line 21, a plain object), given by its own properties in insertion order. -/
structure State where
  mixer : AnimationMixer
  activeAction : Option Value
  actions : List (String × Nat)
deriving DecidableEq

/-- How a call ends: the state it leaves, and whether it raised a `TypeError` instead of
returning. -/
structure Outcome where
  state : State
  threw : Bool
deriving DecidableEq

/-- The state when the mixer has just been created: no action, an empty registry. -/
def initialState : State :=
  { mixer := { time := 0, allActions := [] }, activeAction := none, actions := [] }

/-- The own property of the registry under `name`, if there is one. -/
def ownAction (actions : List (String × Nat)) (name : String) : Option Nat :=
  match actions with
  | [] => none
  | (k, v) :: rest => if k = name then some v else ownAction rest name

/-- The property read `actions[name]` on the plain object: the action stored under `name`
when the object has that property of its own, otherwise the member of `Object.prototype` of
that name when there is one, otherwise `undefined`. -/
def getAction (actions : List (String × Nat)) (name : String) : Option Value :=
  match ownAction actions name with
  | some ref => some (Value.action ref)
  | none => if name ∈ objectPrototypeKeys then some (Value.inherited name) else none

/-- The property write `actions[name] = ref`: replaces the value of an existing key in place,
otherwise appends the key.  (In JavaScript the one name `__proto__` is written to the
object's prototype and not to a key; that write is not represented, and no asset name of the
program is `__proto__`.) -/
def setAction (actions : List (String × Nat)) (name : String) (ref : Nat) :
    List (String × Nat) :=
  match actions with
  | [] => [(name, ref)]
  | (k, v) :: rest => if k = name then (k, ref) :: rest else (k, v) :: setAction rest name ref

/-- The own keys of the registry. -/
def keys (actions : List (String × Nat)) : List String :=
  actions.map Prod.fst

/-- The action a reference points to. -/
def State.action? (s : State) (ref : Nat) : Option AnimationAction :=
  s.mixer.allActions[ref]?

/-- A method call on the action `ref`. -/
def State.send (s : State) (ref : Nat) (c : Call) : State :=
  { s with
    mixer :=
      { s.mixer with
        allActions := modifyAt (fun a => a.perform s.mixer.time c) s.mixer.allActions ref } }

/-! ## The functions of `mail.js` -/

/-- A load request issued by `loadAnimations`: the path passed to `loader.load` and the two
variables its callback has captured. -/
structure LoadRequest where
  path : String
  assetName : String
  index : Nat
deriving DecidableEq

/-- The requests of `loadAnimations` (lines 127-143) for an asset list, in the order
`forEach` issues them. -/
def loadAnimations (assets : List String) : List LoadRequest :=
  assets.enum.map fun p =>
    { path := "models/fbx/" ++ p.2 ++ ".fbx", assetName := p.2, index := p.1 }

/-- The callback of one load (lines 131-141).  When the file carries no animation,
`fbx.animations[0]` is undefined and `mixer.clipAction` raises before anything is stored:
the result is `none`. -/
def loadCallback (assetName : String) (index : Nat) (fbx : FBX) (s : State) : Option State :=
  match fbx.animations with
  | [] => none
  | clip :: _ =>
    let (action, mixer) := s.mixer.clipAction clip
    let s1 : State := { s with mixer := mixer, actions := setAction s.actions assetName action }
    if index = 0 then
      some ({ s1 with activeAction := some (Value.action action) }.send action .play)
    else
      some s1

/-- The call chain of lines 155-160 on the value `activeAction` now holds.  On a member of
`Object.prototype` `reset` is not a function and the call raises. -/
def resetFadeInPlay (target : Value) (duration : ℚ) (s : State) : Outcome :=
  match target with
  | .action t =>
    ⟨((((s.send t .reset).send t (.setEffectiveTimeScale 1)).send t
      (.setEffectiveWeight 1)).send t (.fadeIn duration)).send t .play, false⟩
  | .inherited _ => ⟨s, true⟩

/-- The function `fadeToAction` (lines 145-161).  Every value `actions[name]` can yield is
truthy, so the guard returns when the read is `undefined` or is the value `activeAction`
holds.  When `previousAction` is a member of `Object.prototype`, `fadeOut` is not a function
and the call raises, `activeAction` already reassigned. -/
def fadeToAction (name : String) (duration : ℚ) (s : State) : Outcome :=
  match getAction s.actions name with
  | none => ⟨s, false⟩
  | some target =>
    if s.activeAction = some target then ⟨s, false⟩
    else
      let previousAction := s.activeAction
      let s1 : State := { s with activeAction := some target }
      match previousAction with
      | none => resetFadeInPlay target duration s1
      | some (.action previous) =>
        resetFadeInPlay target duration (s1.send previous (.fadeOut duration))
      | some (.inherited _) => ⟨s1, true⟩

/-- The mixer part of `animate` (lines 179-184); `delta` is what the clock returns. -/
def animate (delta : ℚ) (s : State) : State :=
  { s with mixer := s.mixer.update delta }

/-- White space as the built-in `parseInt` skips it at the start of its argument. -/
def isStrWhiteSpace (c : Char) : Bool :=
  let n := c.toNat
  n = 9 || n = 10 || n = 11 || n = 12 || n = 13 || n = 32 || n = 160 || n = 0x1680 ||
    (0x2000 ≤ n && n ≤ 0x200A) || n = 0x2028 || n = 0x2029 || n = 0x202F || n = 0x205F ||
    n = 0x3000 || n = 0xFEFF

/-- The value of a character as a digit, letters counting from ten. -/
def digitValue (c : Char) : Option Nat :=
  let n := c.toNat
  if 48 ≤ n ∧ n ≤ 57 then some (n - 48)
  else if 97 ≤ n ∧ n ≤ 122 then some (n - 97 + 10)
  else if 65 ≤ n ∧ n ≤ 90 then some (n - 65 + 10)
  else none

/-- The longest run of digits of the radix at the start of the text. -/
def readDigits (radix : Nat) : List Char → List Nat
  | [] => []
  | c :: cs =>
    match digitValue c with
    | some v => if v < radix then v :: readDigits radix cs else []
    | none => []

/-- The built-in `parseInt(string)` called without a radix: leading white space, an optional
sign, an optional `0x` prefix that selects radix 16, then the longest run of digits; `none`
stands for `NaN`, the result when there is no digit.  The result is the exact integer; the
rounding JavaScript applies to integers beyond 2^53 does not move a value across 1 or 6. -/
def parseInt (string : String) : Option Int :=
  let s := string.toList.dropWhile isStrWhiteSpace
  let signed : Int × List Char :=
    match s with
    | '-' :: r => (-1, r)
    | '+' :: r => (1, r)
    | _ => (1, s)
  let prefixed : Nat × List Char :=
    match signed.2 with
    | '0' :: 'x' :: r => (16, r)
    | '0' :: 'X' :: r => (16, r)
    | r => (10, r)
  match readDigits prefixed.1 prefixed.2 with
  | [] => none
  | ds => some (signed.1 * ((ds.foldl (fun acc d => acc * prefixed.1 + d) 0 : Nat) : Int))

/-- The function `onKeyDown` (lines 164-170); `key` is `event.key`.  A comparison with `NaN`
is false.  Inside the range the element `animationAssets[key - 1]` exists; were it undefined,
`fadeToAction` would find no property of that name and return. -/
def onKeyDown (key : String) (s : State) : Outcome :=
  match parseInt key with
  | none => ⟨s, false⟩
  | some k =>
    if 1 ≤ k ∧ k ≤ (animationAssets.length : Int) then
      match animationAssets[(k - 1).toNat]? with
      | some animationName => fadeToAction animationName (1 / 4) s
      | none => ⟨s, false⟩
    else ⟨s, false⟩

/-! ## Runs of the program -/

/-- What can happen after the mixer exists: the load of a request completes and its callback
runs with the variables it captured, `fadeToAction` is called, a key goes down, a frame is
drawn. -/
inductive Event where
  | loaded (request : LoadRequest) (fbx : FBX)
  | fade (name : String) (duration : ℚ)
  | keyDown (key : String)
  | frame (delta : ℚ)
deriving DecidableEq

/-- One event.  A load callback that raises leaves the state as it was; after a call or a key
handler that raises the program goes on from the state the call left. -/
def step (s : State) : Event → State
  | .loaded request fbx => (loadCallback request.assetName request.index fbx s).getD s
  | .fade name duration => (fadeToAction name duration s).state
  | .keyDown key => (onKeyDown key s).state
  | .frame delta => animate delta s

/-- A sequence of events, from the first to the last. -/
def run (s : State) (events : List Event) : State :=
  events.foldl step s

/-- The requests whose callback ran to its end in a sequence of events, in that order. -/
def completedLoads : List Event → List LoadRequest
  | [] => []
  | .loaded request fbx :: rest =>
    if fbx.animations = [] then completedLoads rest else request :: completedLoads rest
  | _ :: rest => completedLoads rest

/-- The action has a fade-in ramp attached. -/
def AnimationAction.hasFadeIn (a : AnimationAction) : Bool :=
  match a.weightInterpolant with
  | some i => decide (i.v0 < i.v1)
  | none => false

/-- The action has a fade-out ramp attached. -/
def AnimationAction.hasFadeOut (a : AnimationAction) : Bool :=
  match a.weightInterpolant with
  | some i => decide (i.v1 < i.v0)
  | none => false

/-- The action's ramp ends after `now`. -/
def AnimationAction.rampPending (a : AnimationAction) (now : ℚ) : Bool :=
  match a.weightInterpolant with
  | some i => decide (now < i.t1)
  | none => false

/-- The references of the actions with a fade-in in flight: a fade-in ramp whose end the
mixer's clock has not reached. -/
def fadeInsInFlight (s : State) : List Nat :=
  (List.range s.mixer.allActions.length).filter fun r =>
    match s.action? r with
    | some a => a.hasFadeIn && a.rampPending s.mixer.time
    | none => false

/-- The references of the actions with a fade-out in flight: a fade-out ramp whose end the
mixer's clock has not reached. -/
def fadeOutsInFlight (s : State) : List Nat :=
  (List.range s.mixer.allActions.length).filter fun r =>
    match s.action? r with
    | some a => a.hasFadeOut && a.rampPending s.mixer.time
    | none => false

/-- The weight an action settles at when no further call reaches it: 0 when disabled or
fading out, its weight otherwise. -/
def AnimationAction.steadyWeight (a : AnimationAction) : ℚ :=
  if a.enabled then
    match a.weightInterpolant with
    | some i => a.weight * i.v1
    | none => a.weight
  else 0

/-- The events of load callbacks completing in the given order, each with the file it
received. -/
def loadEvents (loads : List (LoadRequest × FBX)) : List Event :=
  loads.map fun p => Event.loaded p.1 p.2

/-- The position of the last element of a list that satisfies `q`. -/
def lastWhere {α : Type} (q : α → Bool) : List α → Option Nat
  | [] => none
  | x :: xs =>
    match lastWhere q xs with
    | some i => some (i + 1)
    | none => if q x then some 0 else none

/-- The asset list of the out-of-order scenario. -/
def walkRunIdle : List String := ["Walk", "Run", "Idle"]

/-- A file with one animation. -/
def oneClip : FBX := ⟨[⟨"mixamo.com"⟩]⟩

/-- The loads of `walkRunIdle` completing in the order Run, Walk, Idle. -/
def runWalkIdle : List (LoadRequest × FBX) :=
  [(⟨"models/fbx/Run.fbx", "Run", 1⟩, oneClip), (⟨"models/fbx/Walk.fbx", "Walk", 0⟩, oneClip),
    (⟨"models/fbx/Idle.fbx", "Idle", 2⟩, oneClip)]

/-- The event calls `fadeToAction`, directly or through a key press. -/
def Event.isFade : Event → Bool
  | .fade _ _ => true
  | .keyDown _ => true
  | _ => false

/-- The event is the completion of a load of list index 0. -/
def Event.isIndexZeroLoad : Event → Bool
  | .loaded request _ => decide (request.index = 0)
  | _ => false

/-- No action carries a fade ramp. -/
def NoRamp (s : State) : Prop :=
  ∀ r a, s.action? r = some a → a.weightInterpolant = none

/-- The variable `activeAction` is unset or holds an action, not a member of
`Object.prototype`. -/
def State.activeIsAction (s : State) : Bool :=
  match s.activeAction with
  | some (.inherited _) => false
  | _ => true

/-- The event is a call of `fadeToAction` with a name that `Object.prototype` defines. -/
def Event.fadesInherited : Event → Bool
  | .fade name _ => decide (name ∈ objectPrototypeKeys)
  | _ => false

/-- The variable `activeAction` is unset or holds an action, an action that carries a fade-in
ramp is the active action, and an action that carries a fade-out ramp is not. -/
def FadeInv (s : State) : Prop :=
  s.activeIsAction = true ∧
  ∀ r a, s.action? r = some a →
    (a.hasFadeIn = true → s.activeAction = some (Value.action r)) ∧
    (a.hasFadeOut = true → s.activeAction ≠ some (Value.action r))

/-- The load of "Texting While Standing", list index 0, completes with a file that carries
one animation. -/
def textingLoaded : Event :=
  Event.loaded ⟨"models/fbx/Texting While Standing.fbx", "Texting While Standing", 0⟩ oneClip

/-- The load of "Swimming", list index 1, completes with a file that carries one animation. -/
def swimmingLoaded : Event :=
  Event.loaded ⟨"models/fbx/Swimming.fbx", "Swimming", 1⟩ oneClip

/-- The load of "Chapa-Giratoria", list index 2, completes with a file that carries one
animation. -/
def chapaLoaded : Event :=
  Event.loaded ⟨"models/fbx/Chapa-Giratoria.fbx", "Chapa-Giratoria", 2⟩ oneClip

/-- The first three assets load in list order. -/
def threeLoaded : List Event :=
  [textingLoaded, swimmingLoaded, chapaLoaded]

/-- With "Texting While Standing" active, a fade to "Swimming" and at once a fade to
"Chapa-Giratoria", both of a quarter second. -/
def twoQuickFades : List Event :=
  [Event.fade "Swimming" (1 / 4), Event.fade "Chapa-Giratoria" (1 / 4)]

/-- The assets of index 1 and 2 load, the user fades to "Swimming", then the asset of index 0
loads, and the user fades to "Chapa-Giratoria". -/
def lateDefaultThenFade : List Event :=
  [swimmingLoaded, chapaLoaded, Event.fade "Swimming" (1 / 4), textingLoaded,
    Event.fade "Chapa-Giratoria" (1 / 4)]

/-- The asset of index 1 loads, the user presses "2", the asset of index 0 loads, and two
frames of one second each are drawn. -/
def lateDefault : List Event :=
  [swimmingLoaded, Event.keyDown "2", textingLoaded, Event.frame 1, Event.frame 1]

/-- With three animations registered and "Texting While Standing" active: a fade to
"Swimming", then a call with the inherited name "toString", then a fade back to "Texting
While Standing", all within a quarter second. -/
def fadeThroughToString : List Event :=
  [Event.fade "Swimming" (1 / 4), Event.fade "toString" (1 / 4),
    Event.fade "Texting While Standing" (1 / 4)]

/-- The references of the actions that have been played and settle at weight 1. -/
def fullWeightTargets (s : State) : List Nat :=
  (List.range s.mixer.allActions.length).filter fun r =>
    match s.action? r with
    | some a => a.scheduled && decide (a.steadyWeight = 1)
    | none => false

/-- The blend weight an action reports (`getEffectiveWeight()`); 0 for a reference without an
action. -/
def blendWeight (s : State) (ref : Nat) : ℚ :=
  match s.action? ref with
  | some a => a.effectiveWeight
  | none => 0

/-- The assets of index 0 and 2 have loaded; the asset of index 1, "Swimming", has not. -/
def swimmingMissing : State :=
  run initialState [textingLoaded, chapaLoaded]

/-- The first three assets have loaded in list order; "Texting While Standing" is active at
weight 1. -/
def textingActive : State :=
  run initialState threeLoaded

/-- The state `textingActive` after a call `fadeToAction("toString", 0.25)`: `activeAction`
holds the inherited function. -/
def toStringActive : State :=
  (fadeToAction "toString" (1 / 4) textingActive).state

/-! # Theorems -/

/-! ## Lists and the registry -/

theorem getElem?_modifyAt_same {α : Type} (f : α → α) (l : List α) (i : Nat) :
    (modifyAt f l i)[i]? = l[i]?.map f := by
  induction l generalizing i with
  | nil => simp [modifyAt]
  | cons x xs ih =>
    cases i with
    | zero => simp [modifyAt]
    | succ i => simpa [modifyAt] using ih i

theorem getElem?_modifyAt_other {α : Type} (f : α → α) (l : List α) (i j : Nat) (h : i ≠ j) :
    (modifyAt f l i)[j]? = l[j]? := by
  induction l generalizing i j with
  | nil => simp [modifyAt]
  | cons x xs ih =>
    cases i with
    | zero =>
      cases j with
      | zero => exact absurd rfl h
      | succ j => simp [modifyAt]
    | succ i =>
      cases j with
      | zero => simp [modifyAt]
      | succ j => simpa [modifyAt] using ih i j (fun e => h (by rw [e]))

theorem length_modifyAt {α : Type} (f : α → α) (l : List α) (i : Nat) :
    (modifyAt f l i).length = l.length := by
  induction l generalizing i with
  | nil => simp [modifyAt]
  | cons x xs ih =>
    cases i with
    | zero => simp [modifyAt]
    | succ i => simpa [modifyAt] using ih i

theorem ownAction_eq_none_iff (actions : List (String × Nat)) (name : String) :
    ownAction actions name = none ↔ name ∉ keys actions := by
  induction actions with
  | nil => simp [ownAction, keys]
  | cons p rest ih =>
    obtain ⟨k, v⟩ := p
    by_cases hk : k = name
    · simp [ownAction, keys, hk]
    · have hk2 : ¬ name = k := fun e => hk e.symm
      simpa [ownAction, keys, hk, hk2] using ih

theorem getAction_of_own (actions : List (String × Nat)) (name : String) (ref : Nat)
    (h : ownAction actions name = some ref) : getAction actions name = some (Value.action ref) := by
  simp [getAction, h]

theorem own_of_getAction (actions : List (String × Nat)) (name : String) (ref : Nat)
    (h : getAction actions name = some (Value.action ref)) : ownAction actions name = some ref := by
  unfold getAction at h
  cases ho : ownAction actions name with
  | none =>
    rw [ho] at h
    by_cases hp : name ∈ objectPrototypeKeys
    · simp [hp] at h
    · simp [hp] at h
  | some r =>
    rw [ho] at h
    simpa using h

theorem getAction_not_inherited (actions : List (String × Nat)) (name : String)
    (hp : name ∉ objectPrototypeKeys) :
    getAction actions name = (ownAction actions name).map Value.action := by
  unfold getAction
  cases ownAction actions name with
  | none => simp [hp]
  | some r => rfl

/-! ## Method calls -/

@[simp] theorem send_activeAction (s : State) (r : Nat) (c : Call) :
    (s.send r c).activeAction = s.activeAction := rfl

@[simp] theorem send_actions (s : State) (r : Nat) (c : Call) :
    (s.send r c).actions = s.actions := rfl

@[simp] theorem send_time (s : State) (r : Nat) (c : Call) :
    (s.send r c).mixer.time = s.mixer.time := rfl

theorem action?_send_same (s : State) (r : Nat) (c : Call) :
    (s.send r c).action? r = (s.action? r).map fun a => a.perform s.mixer.time c := by
  simp [State.send, State.action?, getElem?_modifyAt_same]

theorem action?_send_other (s : State) (r r2 : Nat) (c : Call) (h : r ≠ r2) :
    (s.send r c).action? r2 = s.action? r2 := by
  simp [State.send, State.action?, getElem?_modifyAt_other _ _ _ _ h]

/-- C1 as amended. A name that is neither a key of the registry nor a property name of
`Object.prototype`: `fadeToAction` returns, and the state is the one it was given, so
`activeAction`, `actions` and every action (its fade, its play state, the calls it has
received) are as before. -/
theorem fadeToAction_unregistered (s : State) (name : String) (d : ℚ)
    (h : name ∉ keys s.actions) (hp : name ∉ objectPrototypeKeys) :
    fadeToAction name d s = ⟨s, false⟩ := by
  have hn : getAction s.actions name = none := by
    rw [getAction_not_inherited _ _ hp, (ownAction_eq_none_iff _ _).2 h]
    rfl
  simp [fadeToAction, hn]

/-- C2. The value `actions[name]` is the one `activeAction` holds: `fadeToAction` returns, and
the state is the one it was given, so no call is issued to any action, no fade is started or
restarted, and `activeAction` is still `actions[name]`. -/
theorem fadeToAction_active (s : State) (name : String) (d : ℚ) (target : Value)
    (hact : s.activeAction = some target) (hreg : getAction s.actions name = some target) :
    fadeToAction name d s = ⟨s, false⟩ ∧
      (fadeToAction name d s).state.activeAction = getAction s.actions name := by
  have hs : fadeToAction name d s = ⟨s, false⟩ := by simp [fadeToAction, hreg, hact]
  exact ⟨hs, by rw [hs, hreg]; exact hact⟩

theorem activeIsAction_cases (s : State) (h : s.activeIsAction = true) :
    s.activeAction = none ∨ ∃ p, s.activeAction = some (Value.action p) := by
  unfold State.activeIsAction at h
  cases hact : s.activeAction with
  | none => exact Or.inl rfl
  | some v =>
    cases v with
    | action p => exact Or.inr ⟨p, rfl⟩
    | inherited n => simp [hact] at h

/-- The effect of an accepted `fadeToAction` on a registered name, from a state whose
`activeAction` is unset or an action. -/
theorem fadeToAction_effect (s : State) (name : String) (d : ℚ) (target : Nat)
    (hreg : getAction s.actions name = some (Value.action target))
    (hne : s.activeAction ≠ some (Value.action target))
    (hprev : s.activeIsAction = true) :
    (fadeToAction name d s).threw = false ∧
    (fadeToAction name d s).state.activeAction = some (Value.action target) ∧
    (fadeToAction name d s).state.actions = s.actions ∧
    (fadeToAction name d s).state.mixer.time = s.mixer.time ∧
    (fadeToAction name d s).state.mixer.allActions.length = s.mixer.allActions.length ∧
    (∀ previous a, s.activeAction = some (Value.action previous) →
      s.action? previous = some a →
      (fadeToAction name d s).state.action? previous = some
        { a with
          weightInterpolant := some ⟨s.mixer.time, 1, s.mixer.time + d, 0⟩
          calls := a.calls ++ [Call.fadeOut d] }) ∧
    (∀ a, s.action? target = some a →
      (fadeToAction name d s).state.action? target = some
        { a with
          paused := false
          enabled := true
          timeScale := 1
          effectiveTimeScale := 1
          weight := 1
          effectiveWeight := 1
          weightInterpolant := some ⟨s.mixer.time, 0, s.mixer.time + d, 1⟩
          scheduled := true
          calls := a.calls ++ [Call.reset, Call.setEffectiveTimeScale 1,
            Call.setEffectiveWeight 1, Call.fadeIn d, Call.play] }) ∧
    (∀ r, r ≠ target → s.activeAction ≠ some (Value.action r) →
      (fadeToAction name d s).state.action? r = s.action? r) := by
  rcases activeIsAction_cases s hprev with hp | ⟨p, hp⟩
  · have hf : fadeToAction name d s =
        ⟨((((({ s with activeAction := some (Value.action target) } : State).send target
          .reset).send target (.setEffectiveTimeScale 1)).send target
          (.setEffectiveWeight 1)).send target (.fadeIn d)).send target .play, false⟩ := by
      simp [fadeToAction, hreg, hp, resetFadeInPlay]
    rw [hf]
    refine ⟨rfl, rfl, rfl, rfl, ?_, ?_, ?_, ?_⟩
    · simp [State.send, length_modifyAt]
    · intro previous a h
      rw [hp] at h
      cases h
    · intro a ha
      have ha1 : ({ s with activeAction := some (Value.action target) } : State).action? target =
          some a := ha
      simp [action?_send_same, ha1, AnimationAction.perform, AnimationAction.reset,
        AnimationAction.stopFading, AnimationAction.setEffectiveTimeScale,
        AnimationAction.setEffectiveWeight, AnimationAction.fadeIn, AnimationAction.play,
        AnimationAction.scheduleFading]
    · intro r hr _
      simp [action?_send_other _ _ _ _ (Ne.symm hr)]
      rfl
  · have hpt : p ≠ target := fun e => hne (by rw [hp, e])
    have hf : fadeToAction name d s =
        ⟨(((((({ s with activeAction := some (Value.action target) } : State).send p
          (.fadeOut d)).send target .reset).send target (.setEffectiveTimeScale 1)).send target
          (.setEffectiveWeight 1)).send target (.fadeIn d)).send target .play, false⟩ := by
      simp [fadeToAction, hreg, hp, hpt, resetFadeInPlay]
    rw [hf]
    refine ⟨rfl, rfl, rfl, rfl, ?_, ?_, ?_, ?_⟩
    · simp [State.send, length_modifyAt]
    · intro previous a h ha
      rw [hp] at h
      cases h
      have ha1 : ({ s with activeAction := some (Value.action target) } : State).action? p =
          some a := ha
      simp [action?_send_other _ _ _ _ (Ne.symm hpt), action?_send_same, ha1,
        AnimationAction.perform, AnimationAction.fadeOut, AnimationAction.scheduleFading]
    · intro a ha
      have ha1 : ({ s with activeAction := some (Value.action target) } : State).action? target =
          some a := ha
      simp [action?_send_same, action?_send_other _ _ _ _ hpt, ha1, AnimationAction.perform,
        AnimationAction.reset,
        AnimationAction.stopFading, AnimationAction.setEffectiveTimeScale,
        AnimationAction.setEffectiveWeight, AnimationAction.fadeIn, AnimationAction.play,
        AnimationAction.scheduleFading]
    · intro r hr hrp
      have hpr : p ≠ r := fun e => hrp (by rw [hp, e])
      simp [action?_send_other _ _ _ _ (Ne.symm hr), action?_send_other _ _ _ _ hpr]
      rfl

theorem ownAction_setAction_same (actions : List (String × Nat)) (name : String) (ref : Nat) :
    ownAction (setAction actions name ref) name = some ref := by
  induction actions with
  | nil => simp [setAction, ownAction]
  | cons p rest ih =>
    obtain ⟨k, v⟩ := p
    by_cases hk : k = name
    · simp [setAction, ownAction, hk]
    · simpa [setAction, ownAction, hk] using ih

theorem ownAction_setAction_other (actions : List (String × Nat)) (name other : String)
    (ref : Nat) (h : other ≠ name) :
    ownAction (setAction actions name ref) other = ownAction actions other := by
  induction actions with
  | nil =>
    have h2 : ¬ name = other := fun e => h e.symm
    simp [setAction, ownAction, h2]
  | cons p rest ih =>
    obtain ⟨k, v⟩ := p
    by_cases hk : k = name
    · have h2 : ¬ name = other := fun e => h e.symm
      simp [setAction, ownAction, hk, h2]
    · by_cases hko : k = other
      · subst hko
        simp [setAction, ownAction, hk]
      · simpa [setAction, ownAction, hk, hko] using ih

theorem getAction_setAction_same (actions : List (String × Nat)) (name : String) (ref : Nat) :
    getAction (setAction actions name ref) name = some (Value.action ref) :=
  getAction_of_own _ _ _ (ownAction_setAction_same actions name ref)

theorem getAction_setAction_other (actions : List (String × Nat)) (name other : String)
    (ref : Nat) (h : other ≠ name) :
    getAction (setAction actions name ref) other = getAction actions other := by
  unfold getAction
  rw [ownAction_setAction_other actions name other ref h]

theorem mem_keys_setAction (actions : List (String × Nat)) (name k : String) (ref : Nat) :
    k ∈ keys (setAction actions name ref) ↔ k = name ∨ k ∈ keys actions := by
  induction actions with
  | nil => simp [setAction, keys]
  | cons p rest ih =>
    obtain ⟨k2, v⟩ := p
    by_cases hk : k2 = name
    · subst hk
      simp [setAction, keys]
    · have ih2 : k ∈ List.map Prod.fst (setAction rest name ref) ↔
          k = name ∨ k ∈ List.map Prod.fst rest := ih
      simp only [setAction, hk, if_false, keys, List.map_cons, List.mem_cons, ih2]
      tauto

/-! ## The load callback -/

theorem loadCallback_some (s : State) (assetName : String) (index : Nat) (clip : Clip)
    (rest : List Clip) :
    loadCallback assetName index ⟨clip :: rest⟩ s = some
      (if index = 0 then
        ({ s with
            mixer := { s.mixer with allActions := s.mixer.allActions ++ [AnimationAction.create clip] }
            actions := setAction s.actions assetName s.mixer.allActions.length
            activeAction := some (Value.action s.mixer.allActions.length) } : State).send
          s.mixer.allActions.length .play
      else
        { s with
          mixer := { s.mixer with allActions := s.mixer.allActions ++ [AnimationAction.create clip] }
          actions := setAction s.actions assetName s.mixer.allActions.length }) := by
  by_cases h : index = 0 <;> simp [loadCallback, AnimationMixer.clipAction, h]


/-! ## Key presses -/

theorem resetFadeInPlay_actions (target : Value) (d : ℚ) (s : State) :
    (resetFadeInPlay target d s).state.actions = s.actions := by
  cases target <;> rfl

@[simp] theorem fadeToAction_actions (name : String) (d : ℚ) (s : State) :
    (fadeToAction name d s).state.actions = s.actions := by
  obtain ⟨m, act, reg⟩ := s
  unfold fadeToAction
  split
  · rfl
  · split
    · rfl
    · rcases act with _ | v
      · exact resetFadeInPlay_actions _ _ _
      · cases v with
        | action p => exact resetFadeInPlay_actions _ _ _
        | inherited n => rfl

@[simp] theorem onKeyDown_actions (key : String) (s : State) :
    (onKeyDown key s).state.actions = s.actions := by
  unfold onKeyDown
  split
  · rfl
  · split
    · split
      · exact fadeToAction_actions _ _ _
      · rfl
    · rfl

/-- C5. A key whose text parses to an integer `k` with `1 ≤ k ≤ 6` has exactly the effect of
`fadeToAction(animationAssets[k-1], 0.25)`, and `animationAssets[k-1]` is the name the
on-screen help shows beside `k`; a key that parses to an integer outside that range, or to
no number, returns and leaves the state as it was.  The list has six names, and the key "2" selects
"Swimming". -/
theorem onKeyDown_selects (key : String) (s : State) :
    (∀ k : Int, parseInt key = some k → 1 ≤ k → k ≤ 6 →
      ∃ name, animationAssets[(k - 1).toNat]? = some name ∧
        instructions.lookup k.toNat = some name ∧
        onKeyDown key s = fadeToAction name (1 / 4) s) ∧
    (∀ k : Int, parseInt key = some k → k < 1 ∨ 6 < k → onKeyDown key s = ⟨s, false⟩) ∧
    (parseInt key = none → onKeyDown key s = ⟨s, false⟩) ∧
    animationAssets.length = 6 ∧
    onKeyDown "2" s = fadeToAction "Swimming" (1 / 4) s := by
  refine ⟨?_, ?_, ?_, rfl, ?_⟩
  · intro k hk h1 h6
    have hlen : (animationAssets.length : Int) = 6 := rfl
    interval_cases k
    · exact ⟨_, rfl, rfl, by simp [onKeyDown, hk, hlen]; rfl⟩
    · exact ⟨_, rfl, rfl, by simp [onKeyDown, hk, hlen]; rfl⟩
    · exact ⟨_, rfl, rfl, by simp [onKeyDown, hk, hlen]; rfl⟩
    · exact ⟨_, rfl, rfl, by simp [onKeyDown, hk, hlen]; rfl⟩
    · exact ⟨_, rfl, rfl, by simp [onKeyDown, hk, hlen]; rfl⟩
    · exact ⟨_, rfl, rfl, by simp [onKeyDown, hk, hlen]; rfl⟩
  · intro k hk hout
    have hlen : (animationAssets.length : Int) = 6 := rfl
    have hno : ¬ (1 ≤ k ∧ k ≤ 6) := by omega
    simp [onKeyDown, hk, hlen, hno]
  · intro hk
    simp [onKeyDown, hk]
  · have hk : parseInt "2" = some 2 := by decide
    have hlen : (animationAssets.length : Int) = 6 := rfl
    simp [onKeyDown, hk, hlen]
    rfl


/-! ## Load requests -/

theorem loadAnimations_assetNames (assets : List String) :
    (loadAnimations assets).map (fun r => r.assetName) = assets := by
  simp [loadAnimations, List.map_map, Function.comp_def, List.enum_map_snd]

theorem loadAnimations_indices (assets : List String) :
    (loadAnimations assets).map (fun r => r.index) = List.range assets.length := by
  simp [loadAnimations, List.map_map, Function.comp_def, List.enum_map_fst]

theorem loadAnimations_paths (assets : List String) :
    ∀ r ∈ loadAnimations assets, r.path = "models/fbx/" ++ r.assetName ++ ".fbx" := by
  intro r hr
  simp only [loadAnimations, List.mem_map] at hr
  obtain ⟨p, _, rfl⟩ := hr
  rfl

@[simp] theorem animate_actions (delta : ℚ) (s : State) :
    (animate delta s).actions = s.actions := rfl

theorem mem_keys_step (s : State) (e : Event) (n : String) :
    n ∈ keys (step s e).actions ↔
      n ∈ keys s.actions ∨ n ∈ (completedLoads [e]).map (fun r => r.assetName) := by
  cases e with
  | loaded request fbx =>
    obtain ⟨anims⟩ := fbx
    cases anims with
    | nil => simp [step, loadCallback, completedLoads]
    | cons clip rest =>
      simp only [step, loadCallback_some, Option.getD_some, completedLoads]
      by_cases h : request.index = 0
      · simp [h, mem_keys_setAction]
        tauto
      · simp [h, mem_keys_setAction]
        tauto
  | fade name d => simp [step, completedLoads]
  | keyDown key => simp [step, completedLoads]
  | frame delta => simp [step, completedLoads]

theorem completedLoads_cons (e : Event) (rest : List Event) :
    completedLoads (e :: rest) = completedLoads [e] ++ completedLoads rest := by
  cases e with
  | loaded request fbx =>
    by_cases h : fbx.animations = [] <;> simp [completedLoads, h]
  | fade name d => simp [completedLoads]
  | keyDown key => simp [completedLoads]
  | frame delta => simp [completedLoads]

theorem mem_keys_run (events : List Event) (s : State) (n : String) :
    n ∈ keys (run s events).actions ↔
      n ∈ keys s.actions ∨ n ∈ (completedLoads events).map (fun r => r.assetName) := by
  induction events generalizing s with
  | nil => simp [run, completedLoads]
  | cons e rest ih =>
    have hrun : run s (e :: rest) = run (step s e) rest := rfl
    rw [hrun, ih, mem_keys_step, completedLoads_cons e rest]
    simp only [List.map_append, List.mem_append]
    tauto

/-- C6. `loadAnimations` issues one request per asset name, in list order, with indices
0, 1, 2, ... and the path "models/fbx/" + name + ".fbx".  The callback of a request stores the
new action under the asset name and changes the value of no other key.  When the callbacks
of the six requests for `animationAssets` have all run, in any order and with any calls and
frames in between, the keys of the registry are exactly the names of `animationAssets`. -/
theorem loadAnimations_registers :
    (∀ assets : List String,
      (loadAnimations assets).map (fun r => r.assetName) = assets ∧
      (loadAnimations assets).map (fun r => r.index) = List.range assets.length ∧
      (loadAnimations assets).map (fun r => r.path) =
        assets.map (fun n => "models/fbx/" ++ n ++ ".fbx")) ∧
    (loadAnimations animationAssets).length = 6 ∧
    (∀ (s : State) (assetName : String) (index : Nat) (clip : Clip) (rest : List Clip),
      ∃ s2, loadCallback assetName index ⟨clip :: rest⟩ s = some s2 ∧
        getAction s2.actions assetName = some (Value.action s.mixer.allActions.length) ∧
        (∀ k, k ≠ assetName → getAction s2.actions k = getAction s.actions k) ∧
        (∀ k, k ∈ keys s2.actions ↔ k = assetName ∨ k ∈ keys s.actions)) ∧
    (∀ events : List Event, (completedLoads events).Perm (loadAnimations animationAssets) →
      ∀ n, n ∈ keys (run initialState events).actions ↔ n ∈ animationAssets) := by
  refine ⟨?_, rfl, ?_, ?_⟩
  · intro assets
    refine ⟨loadAnimations_assetNames assets, loadAnimations_indices assets, ?_⟩
    have h : (loadAnimations assets).map (fun r => r.path) =
        ((loadAnimations assets).map (fun r => r.assetName)).map
          (fun n => "models/fbx/" ++ n ++ ".fbx") := by
      rw [List.map_map]
      apply List.map_congr_left
      intro r hr
      exact loadAnimations_paths assets r hr
    rw [h, loadAnimations_assetNames]
  · intro s assetName index clip rest
    refine ⟨_, loadCallback_some s assetName index clip rest, ?_⟩
    by_cases h : index = 0
    · simp [h, getAction_setAction_same, mem_keys_setAction]
      intro k hk
      exact getAction_setAction_other _ _ _ _ hk
    · simp [h, getAction_setAction_same, mem_keys_setAction]
      intro k hk
      exact getAction_setAction_other _ _ _ _ hk
  · intro events hperm n
    rw [mem_keys_run]
    have hnames : ((completedLoads events).map (fun r => r.assetName)).Perm animationAssets := by
      have := hperm.map (fun r => r.assetName)
      rwa [loadAnimations_assetNames] at this
    simp [initialState, keys, hnames.mem_iff]


/-! ## Sequences of load callbacks -/

theorem lastWhere_some {α : Type} (q : α → Bool) (l : List α) (i : Nat)
    (h : lastWhere q l = some i) : ∃ x, l[i]? = some x ∧ q x = true := by
  induction l generalizing i with
  | nil => simp [lastWhere] at h
  | cons x xs ih =>
    cases hl : lastWhere q xs with
    | some j =>
      simp only [lastWhere, hl, Option.some.injEq] at h
      subst h
      simpa using ih j hl
    | none =>
      by_cases hq : q x = true
      · simp only [lastWhere, hl, hq, if_true, Option.some.injEq] at h
        subst h
        exact ⟨x, by simp, hq⟩
      · simp [lastWhere, hl, hq] at h

theorem lastWhere_none {α : Type} (q : α → Bool) (l : List α) (h : ∀ x ∈ l, q x = false) :
    lastWhere q l = none := by
  induction l with
  | nil => rfl
  | cons x xs ih =>
    have h1 : lastWhere q xs = none := ih (fun y hy => h y (List.mem_cons_of_mem _ hy))
    have h2 : q x = false := h x (List.mem_cons_self _ _)
    simp [lastWhere, h1, h2]

theorem lastWhere_isSome {α : Type} (q : α → Bool) (l : List α) (x : α) (hx : x ∈ l)
    (hq : q x = true) : ∃ i, lastWhere q l = some i := by
  induction l with
  | nil => cases hx
  | cons y ys ih =>
    cases hl : lastWhere q ys with
    | some j => exact ⟨j + 1, by simp [lastWhere, hl]⟩
    | none =>
      rcases List.mem_cons.1 hx with rfl | hmem
      · exact ⟨0, by simp [lastWhere, hl, hq]⟩
      · obtain ⟨i, hi⟩ := ih hmem
        rw [hl] at hi
        cases hi

theorem lastWhere_congr {α : Type} (q1 q2 : α → Bool) (l : List α)
    (h : ∀ x ∈ l, q1 x = q2 x) : lastWhere q1 l = lastWhere q2 l := by
  induction l with
  | nil => rfl
  | cons x xs ih =>
    have h1 := ih (fun y hy => h y (List.mem_cons_of_mem _ hy))
    have h2 := h x (List.mem_cons_self _ _)
    simp [lastWhere, h1, h2]

/-- The effect of a load callback on a file with at least one animation. -/
theorem loadCallback_effect (s : State) (assetName : String) (index : Nat)
    (clip : Clip) (rest : List Clip) :
    ∃ s2, loadCallback assetName index ⟨clip :: rest⟩ s = some s2 ∧
      getAction s2.actions assetName = some (Value.action s.mixer.allActions.length) ∧
      (∀ k, k ≠ assetName → getAction s2.actions k = getAction s.actions k) ∧
      s2.mixer.time = s.mixer.time ∧
      s2.mixer.allActions.length = s.mixer.allActions.length + 1 ∧
      (∀ r, r < s.mixer.allActions.length → s2.action? r = s.action? r) ∧
      (index = 0 →
        s2.activeAction = some (Value.action s.mixer.allActions.length) ∧
        s2.action? s.mixer.allActions.length = some
          { AnimationAction.create clip with scheduled := true, calls := [Call.play] }) ∧
      (index ≠ 0 →
        s2.activeAction = s.activeAction ∧
        s2.action? s.mixer.allActions.length = some (AnimationAction.create clip)) := by
  by_cases h : index = 0
  · subst h
    refine ⟨_, loadCallback_some s assetName 0 clip rest, ?_⟩
    rw [if_pos rfl]
    refine ⟨by simp [getAction_setAction_same], ?_, rfl, ?_, ?_, ?_, ?_⟩
    · intro k hk
      exact getAction_setAction_other _ _ _ _ hk
    · simp [State.send, length_modifyAt]
    · intro r hr
      rw [action?_send_other _ _ _ _ (Nat.ne_of_gt hr)]
      simp [State.action?, List.getElem?_append_left hr]
    · intro _
      refine ⟨rfl, ?_⟩
      rw [action?_send_same]
      simp [State.action?, AnimationAction.perform, AnimationAction.play,
        AnimationAction.create]
    · intro hc; exact absurd rfl hc
  · refine ⟨_, loadCallback_some s assetName index clip rest, ?_⟩
    rw [if_neg h]
    refine ⟨by simp [getAction_setAction_same], ?_, rfl, by simp, ?_, ?_, ?_⟩
    · intro k hk
      exact getAction_setAction_other _ _ _ _ hk
    · intro r hr
      simp [State.action?, List.getElem?_append_left hr]
    · intro hc; exact absurd hc h
    · intro _
      refine ⟨rfl, ?_⟩
      simp [State.action?]

theorem run_cons (s : State) (e : Event) (rest : List Event) :
    run s (e :: rest) = run (step s e) rest := rfl

/-- After a sequence of load callbacks alone: one action per callback, the active action is
the one of the last index-0 callback, the registry maps a name to the action of the last
callback with that name, the actions of index-0 callbacks have received `play()` and the
others nothing, and earlier actions are untouched. -/
theorem run_loadEvents (loads : List (LoadRequest × FBX)) (s : State)
    (hok : ∀ p ∈ loads, p.2.animations ≠ []) :
    (run s (loadEvents loads)).mixer.allActions.length =
        s.mixer.allActions.length + loads.length ∧
    (run s (loadEvents loads)).activeAction =
      (match lastWhere (fun p => decide (p.1.index = 0)) loads with
        | some i => some (Value.action (s.mixer.allActions.length + i))
        | none => s.activeAction) ∧
    (∀ name, getAction (run s (loadEvents loads)).actions name =
      (match lastWhere (fun p => decide (p.1.assetName = name)) loads with
        | some i => some (Value.action (s.mixer.allActions.length + i))
        | none => getAction s.actions name)) ∧
    (∀ r, r < s.mixer.allActions.length →
      (run s (loadEvents loads)).action? r = s.action? r) ∧
    (∀ i p, loads[i]? = some p →
      ((run s (loadEvents loads)).action? (s.mixer.allActions.length + i)).map
          (fun a => a.calls) =
        some (if p.1.index = 0 then [Call.play] else [])) := by
  induction loads generalizing s with
  | nil => simp [loadEvents, run, lastWhere]
  | cons p rest ih =>
    obtain ⟨req, fbx⟩ := p
    obtain ⟨anims⟩ := fbx
    cases anims with
    | nil => exact absurd rfl (hok _ (List.mem_cons_self _ _))
    | cons clip cs =>
      obtain ⟨s2, hs2, hreg, hother, _, hlen, hold, hzero, hnonzero⟩ :=
        loadCallback_effect s req.assetName req.index clip cs
      have hstep : step s (Event.loaded req ⟨clip :: cs⟩) = s2 := by simp [step, hs2]
      have hrun : run s (loadEvents ((req, ⟨clip :: cs⟩) :: rest)) =
          run s2 (loadEvents rest) := by
        simp only [loadEvents, List.map_cons, run_cons, hstep]
      obtain ⟨ih1, ih2, ih3, ih4, ih5⟩ :=
        ih s2 (fun q hq => hok q (List.mem_cons_of_mem _ hq))
      rw [hrun]
      refine ⟨?_, ?_, ?_, ?_, ?_⟩
      · rw [ih1, hlen, List.length_cons]; omega
      · rw [ih2, hlen]
        cases hl : lastWhere (fun p => decide (p.1.index = 0)) rest with
        | some i => simp [lastWhere, hl]; omega
        | none =>
          by_cases h0 : req.index = 0
          · simp [lastWhere, hl, h0, (hzero h0).1]
          · simp [lastWhere, hl, h0, (hnonzero h0).1]
      · intro name
        rw [ih3, hlen]
        cases hl : lastWhere (fun p => decide (p.1.assetName = name)) rest with
        | some i => simp [lastWhere, hl]; omega
        | none =>
          by_cases hn : req.assetName = name
          · subst hn
            simp [lastWhere, hl, hreg]
          · simp [lastWhere, hl, hn, hother name (fun e => hn e.symm)]
      · intro r hr
        rw [ih4 r (by omega), hold r hr]
      · intro i q hq
        cases i with
        | zero =>
          simp only [List.getElem?_cons_zero, Option.some.injEq] at hq
          subst hq
          rw [Nat.add_zero, ih4 _ (by omega)]
          by_cases h0 : req.index = 0
          · simp [h0, (hzero h0).2]
          · simp [h0, (hnonzero h0).2, AnimationAction.create]
        | succ j =>
          simp only [List.getElem?_cons_succ] at hq
          have := ih5 j q hq
          rw [hlen] at this
          have e : s.mixer.allActions.length + (j + 1) = s.mixer.allActions.length + 1 + j := by
            omega
          rw [e]
          exact this


/-- C10. The load callback of a file with at least one animation creates one action and
stores it under the asset name, leaving the other keys as they were.  For index 0 that
action becomes `activeAction` and receives `play()`.  For any other index `activeAction` is
as before and the new action has received no call.  In both cases every action that existed
before, and the clock, are unchanged. -/
theorem loadCallback_index_zero_default (s : State) (assetName : String) (index : Nat)
    (clip : Clip) (rest : List Clip) :
    ∃ s2, loadCallback assetName index ⟨clip :: rest⟩ s = some s2 ∧
      getAction s2.actions assetName = some (Value.action s.mixer.allActions.length) ∧
      (∀ k, k ≠ assetName → getAction s2.actions k = getAction s.actions k) ∧
      s2.mixer.time = s.mixer.time ∧
      s2.mixer.allActions.length = s.mixer.allActions.length + 1 ∧
      (∀ r, r < s.mixer.allActions.length → s2.action? r = s.action? r) ∧
      (index = 0 →
        s2.activeAction = some (Value.action s.mixer.allActions.length) ∧
        s2.action? s.mixer.allActions.length = some
          { AnimationAction.create clip with scheduled := true, calls := [Call.play] }) ∧
      (index ≠ 0 →
        s2.activeAction = s.activeAction ∧
        s2.action? s.mixer.allActions.length = some (AnimationAction.create clip)) :=
  loadCallback_effect s assetName index clip rest

theorem loadAnimations_index_zero (assets : List String) (first : String)
    (hfirst : assets.head? = some first) (r : LoadRequest) (hr : r ∈ loadAnimations assets)
    (h0 : r.index = 0) : r.assetName = first := by
  simp only [loadAnimations, List.mem_map] at hr
  obtain ⟨⟨i, n⟩, hmem, rfl⟩ := hr
  have hi : assets[i]? = some n := List.mk_mem_enum_iff_getElem?.1 hmem
  simp only at h0
  subst h0
  cases assets with
  | nil => simp at hfirst
  | cons a rest =>
    simp only [List.head?_cons, Option.some.injEq] at hfirst
    simp only [List.getElem?_cons_zero, Option.some.injEq] at hi
    simp only
    rw [← hi, hfirst]

theorem loadAnimations_named_first (assets : List String) (first : String)
    (hfirst : assets.head? = some first) (hnd : assets.Nodup) (r : LoadRequest)
    (hr : r ∈ loadAnimations assets) (hname : r.assetName = first) : r.index = 0 := by
  simp only [loadAnimations, List.mem_map] at hr
  obtain ⟨⟨i, n⟩, hmem, rfl⟩ := hr
  have hi : assets[i]? = some n := List.mk_mem_enum_iff_getElem?.1 hmem
  simp only at hname
  subst hname
  cases assets with
  | nil => simp at hfirst
  | cons a rest =>
    simp only [List.head?_cons, Option.some.injEq] at hfirst
    subst hfirst
    cases i with
    | zero => rfl
    | succ j =>
      simp only [List.getElem?_cons_succ] at hi
      have hmem2 : a ∈ rest := List.getElem?_mem hi
      exact absurd hmem2 (List.nodup_cons.1 hnd).1

theorem loadAnimations_has_index_zero (assets : List String) (first : String)
    (hfirst : assets.head? = some first) : ∃ r ∈ loadAnimations assets, r.index = 0 := by
  cases assets with
  | nil => simp at hfirst
  | cons a rest =>
    refine ⟨⟨"models/fbx/" ++ a ++ ".fbx", a, 0⟩, ?_, rfl⟩
    simp [loadAnimations, List.enum]

/-- C4 as amended. For every asset list and every order in which its load callbacks
complete (files with an animation, no other event in between): as long as the callback of
list index 0 has not run `activeAction` stays unset, whatever has been registered; after all
callbacks the active action is the one the index-0 callback created, it is the only action
that has received `play()`, and when the names are distinct it is the action registered
under the first name of the list. -/
theorem index_zero_asset_is_default (assets : List String) (first : String)
    (loads : List (LoadRequest × FBX))
    (hfirst : assets.head? = some first)
    (hperm : (loads.map Prod.fst).Perm (loadAnimations assets))
    (hok : ∀ p ∈ loads, p.2.animations ≠ []) :
    (∀ k, (∀ p ∈ loads.take k, p.1.index ≠ 0) →
      (run initialState (loadEvents (loads.take k))).activeAction = none) ∧
    (∀ i p, loads[i]? = some p →
      ((run initialState (loadEvents loads)).action? i).map (fun a => a.calls) =
        some (if p.1.index = 0 then [Call.play] else [])) ∧
    ∃ ref p, loads[ref]? = some p ∧ p.1.index = 0 ∧ p.1.assetName = first ∧
      (run initialState (loadEvents loads)).activeAction = some (Value.action ref) ∧
      (assets.Nodup → getAction (run initialState (loadEvents loads)).actions first = some (Value.action ref)) := by
  have hmem : ∀ p ∈ loads, p.1 ∈ loadAnimations assets := fun p hp =>
    hperm.mem_iff.1 (List.mem_map_of_mem Prod.fst hp)
  obtain ⟨hlen, hact, hreg, _, hcalls⟩ := run_loadEvents loads initialState hok
  refine ⟨?_, ?_, ?_⟩
  · intro k hk
    have hok2 : ∀ p ∈ loads.take k, p.2.animations ≠ [] := fun p hp =>
      hok p (List.mem_of_mem_take hp)
    obtain ⟨_, hact2, _⟩ := run_loadEvents (loads.take k) initialState hok2
    rw [hact2, lastWhere_none _ _ (fun p hp => by simpa using hk p hp)]
    rfl
  · intro i p hp
    have := hcalls i p hp
    simpa [initialState] using this
  · obtain ⟨r0, hr0, hr0i⟩ := loadAnimations_has_index_zero assets first hfirst
    obtain ⟨p0, hp0, hp0r⟩ := List.mem_map.1 (hperm.mem_iff.2 hr0)
    obtain ⟨ref, href⟩ := lastWhere_isSome (fun p : LoadRequest × FBX => decide (p.1.index = 0))
      loads p0 hp0 (by simp [hp0r, hr0i])
    obtain ⟨p, hp, hpq⟩ := lastWhere_some _ _ _ href
    have hp0 : p.1.index = 0 := by simpa using hpq
    have hpmem : p ∈ loads := List.getElem?_mem hp
    refine ⟨ref, p, hp, hp0, loadAnimations_index_zero assets first hfirst p.1 (hmem p hpmem) hp0,
      ?_, ?_⟩
    · rw [hact, href]
      simp [initialState]
    · intro hnd
      have hcongr : lastWhere (fun p : LoadRequest × FBX => decide (p.1.assetName = first)) loads =
          lastWhere (fun p : LoadRequest × FBX => decide (p.1.index = 0)) loads := by
        apply lastWhere_congr
        intro q hq
        have hq1 := hmem q hq
        by_cases hqi : q.1.index = 0
        · simp [hqi, loadAnimations_index_zero assets first hfirst q.1 hq1 hqi]
        · have : q.1.assetName ≠ first := fun e =>
            hqi (loadAnimations_named_first assets first hfirst hnd q.1 hq1 e)
          simp [hqi, this]
      rw [hreg first, hcongr, href]
      simp [initialState]

/-- C4, witness: the list Walk, Run, Idle with the loads completing in the order Run, Walk,
Idle. -/
theorem index_zero_asset_is_default_witness :
    (∀ k, (∀ p ∈ runWalkIdle.take k, p.1.index ≠ 0) →
      (run initialState (loadEvents (runWalkIdle.take k))).activeAction = none) ∧
    (∀ i p, runWalkIdle[i]? = some p →
      ((run initialState (loadEvents runWalkIdle)).action? i).map (fun a => a.calls) =
        some (if p.1.index = 0 then [Call.play] else [])) ∧
    ∃ ref p, runWalkIdle[ref]? = some p ∧ p.1.index = 0 ∧ p.1.assetName = "Walk" ∧
      (run initialState (loadEvents runWalkIdle)).activeAction = some (Value.action ref) ∧
      (walkRunIdle.Nodup → getAction (run initialState (loadEvents runWalkIdle)).actions "Walk" = some (Value.action ref)) :=
  index_zero_asset_is_default walkRunIdle "Walk" runWalkIdle rfl (by decide) (by decide)

/-- C4, counterexample: the asset list Walk, Run, Idle with the loads completing in the order
Run, Walk, Idle.  The callback of Run runs while the registry is empty and no action is
active, and `activeAction` is still unset after it; after the three callbacks the active
action is the one registered under "Walk", not the one under "Run". -/
theorem first_completed_is_not_default :
    (runWalkIdle.map Prod.fst).Perm (loadAnimations walkRunIdle) ∧
    initialState.actions = [] ∧ initialState.activeAction = none ∧
    keys (run initialState (loadEvents (runWalkIdle.take 1))).actions = ["Run"] ∧
    (run initialState (loadEvents (runWalkIdle.take 1))).activeAction = none ∧
    getAction (run initialState (loadEvents runWalkIdle)).actions "Run" = some (Value.action 0) ∧
    getAction (run initialState (loadEvents runWalkIdle)).actions "Walk" = some (Value.action 1) ∧
    (run initialState (loadEvents runWalkIdle)).activeAction = some (Value.action 1) := by
  decide!


/-- C3 as amended. A registered name whose action is not the active one, in a state whose
`activeAction` is unset or an action: the call returns; `activeAction` becomes
`actions[name]`; the registry and the clock are as before; the action that was active
receives `fadeOut(d)` and nothing else, it keeps running and gets a ramp from 1 to 0 over
`d`; the new active action receives `reset`, `setEffectiveTimeScale(1)`,
`setEffectiveWeight(1)`, `fadeIn(d)`, `play` in this order, and ends enabled, running, with
weight 1 and a ramp from 0 to 1 over the same `d`; every other action is as before. -/
theorem fadeToAction_accepted (s : State) (name : String) (d : ℚ) (target : Nat)
    (hreg : getAction s.actions name = some (Value.action target))
    (hne : s.activeAction ≠ some (Value.action target))
    (hprev : s.activeIsAction = true) :
    (fadeToAction name d s).threw = false ∧
    (fadeToAction name d s).state.activeAction = some (Value.action target) ∧
    (fadeToAction name d s).state.actions = s.actions ∧
    (fadeToAction name d s).state.mixer.time = s.mixer.time ∧
    (fadeToAction name d s).state.mixer.allActions.length = s.mixer.allActions.length ∧
    (∀ previous a, s.activeAction = some (Value.action previous) →
      s.action? previous = some a →
      (fadeToAction name d s).state.action? previous = some
        { a with
          weightInterpolant := some ⟨s.mixer.time, 1, s.mixer.time + d, 0⟩
          calls := a.calls ++ [Call.fadeOut d] }) ∧
    (∀ a, s.action? target = some a →
      (fadeToAction name d s).state.action? target = some
        { a with
          paused := false
          enabled := true
          timeScale := 1
          effectiveTimeScale := 1
          weight := 1
          effectiveWeight := 1
          weightInterpolant := some ⟨s.mixer.time, 0, s.mixer.time + d, 1⟩
          scheduled := true
          calls := a.calls ++ [Call.reset, Call.setEffectiveTimeScale 1,
            Call.setEffectiveWeight 1, Call.fadeIn d, Call.play] }) ∧
    (∀ r, r ≠ target → s.activeAction ≠ some (Value.action r) →
      (fadeToAction name d s).state.action? r = s.action? r) :=
  fadeToAction_effect s name d target hreg hne hprev

/-! ## Fades in flight -/

theorem action?_animate (delta : ℚ) (s : State) (r : Nat) :
    (animate delta s).action? r =
      (s.action? r).map fun a => if a.scheduled then a.update (s.mixer.time + delta) else a := by
  simp [animate, AnimationMixer.update, State.action?, List.getElem?_map]

theorem updateWeight_ramp (a : AnimationAction) (t : ℚ) :
    (a.updateWeight t).weightInterpolant = a.weightInterpolant ∨
      (a.updateWeight t).weightInterpolant = none := by
  unfold AnimationAction.updateWeight
  split
  · split
    · left; simp [*]
    · split
      · right; rfl
      · left; rfl
  · left; rfl

theorem update_ramp (a : AnimationAction) (t : ℚ) :
    (a.update t).weightInterpolant = a.weightInterpolant ∨
      (a.update t).weightInterpolant = none := by
  unfold AnimationAction.update
  split
  · exact updateWeight_ramp a.updateTimeScale t
  · exact updateWeight_ramp a t

theorem hasFadeIn_of_ramp (a b : AnimationAction)
    (h : b.weightInterpolant = a.weightInterpolant ∨ b.weightInterpolant = none)
    (hb : b.hasFadeIn = true) : a.hasFadeIn = true := by
  rcases h with h | h
  · simpa [AnimationAction.hasFadeIn, h] using hb
  · simp [AnimationAction.hasFadeIn, h] at hb

theorem hasFadeOut_of_ramp (a b : AnimationAction)
    (h : b.weightInterpolant = a.weightInterpolant ∨ b.weightInterpolant = none)
    (hb : b.hasFadeOut = true) : a.hasFadeOut = true := by
  rcases h with h | h
  · simpa [AnimationAction.hasFadeOut, h] using hb
  · simp [AnimationAction.hasFadeOut, h] at hb

theorem frame_ramp (delta : ℚ) (s : State) (r : Nat) (b : AnimationAction)
    (hb : (animate delta s).action? r = some b) :
    ∃ a, s.action? r = some a ∧
      (b.weightInterpolant = a.weightInterpolant ∨ b.weightInterpolant = none) := by
  rw [action?_animate] at hb
  cases ha : s.action? r with
  | none => simp [ha] at hb
  | some a =>
    simp only [ha, Option.map_some', Option.some.injEq] at hb
    refine ⟨a, rfl, ?_⟩
    subst hb
    split
    · exact update_ramp a _
    · left; rfl

/-- What a completed load callback leaves in the heap: the old actions, and one new action
without a ramp. -/
theorem loaded_action (s : State) (request : LoadRequest) (fbx : FBX) (r : Nat)
    (b : AnimationAction) (hb : (step s (Event.loaded request fbx)).action? r = some b) :
    s.action? r = some b ∨ (s.action? r = none ∧ b.weightInterpolant = none) := by
  obtain ⟨anims⟩ := fbx
  cases anims with
  | nil =>
    left
    simpa [step, loadCallback] using hb
  | cons clip cs =>
    obtain ⟨s2, hs2, _, _, _, hlen, hold, hzero, hnonzero⟩ :=
      loadCallback_effect s request.assetName request.index clip cs
    have hstep : step s (Event.loaded request ⟨clip :: cs⟩) = s2 := by simp [step, hs2]
    rw [hstep] at hb
    rcases Nat.lt_trichotomy r s.mixer.allActions.length with hr | hr | hr
    · left
      rw [← hold r hr]; exact hb
    · right
      subst hr
      refine ⟨by simp [State.action?], ?_⟩
      by_cases h0 : request.index = 0
      · rw [(hzero h0).2] at hb
        cases hb
        rfl
      · rw [(hnonzero h0).2] at hb
        cases hb
        rfl
    · have : s2.action? r = none := by
        simp only [State.action?]
        exact List.getElem?_eq_none (by omega)
      rw [this] at hb
      cases hb

theorem NoRamp_initialState : NoRamp initialState := by
  intro r a h
  simp [initialState, State.action?] at h

theorem NoRamp_step (s : State) (e : Event) (he : e.isFade = false) (h : NoRamp s) :
    NoRamp (step s e) := by
  intro r b hb
  cases e with
  | loaded request fbx =>
    rcases loaded_action s request fbx r b hb with h1 | h1
    · exact h r b h1
    · exact h1.2
  | fade name d => simp [Event.isFade] at he
  | keyDown key => simp [Event.isFade] at he
  | frame delta =>
    obtain ⟨a, ha, hr⟩ := frame_ramp delta s r b hb
    rcases hr with hr | hr
    · rw [hr]; exact h r a ha
    · exact hr

theorem NoRamp_run (events : List Event) (s : State) (he : ∀ e ∈ events, e.isFade = false)
    (h : NoRamp s) : NoRamp (run s events) := by
  induction events generalizing s with
  | nil => exact h
  | cons e rest ih =>
    rw [run_cons]
    exact ih (step s e) (fun x hx => he x (List.mem_cons_of_mem _ hx))
      (NoRamp_step s e (he e (List.mem_cons_self _ _)) h)

theorem activeIsAction_step (s : State) (e : Event) (he : e.isFade = false)
    (h : s.activeIsAction = true) : (step s e).activeIsAction = true := by
  cases e with
  | loaded request fbx =>
    obtain ⟨anims⟩ := fbx
    cases anims with
    | nil => simpa [step, loadCallback] using h
    | cons clip cs =>
      obtain ⟨s2, hs2, _, _, _, _, _, hzero, hnonzero⟩ :=
        loadCallback_effect s request.assetName request.index clip cs
      have hstep : step s (Event.loaded request ⟨clip :: cs⟩) = s2 := by simp [step, hs2]
      rw [hstep]
      by_cases h0 : request.index = 0
      · simp [State.activeIsAction, (hzero h0).1]
      · simpa [State.activeIsAction, (hnonzero h0).1] using h
  | fade name d => simp [Event.isFade] at he
  | keyDown key => simp [Event.isFade] at he
  | frame delta => exact h

theorem activeIsAction_run (events : List Event) (s : State)
    (he : ∀ e ∈ events, e.isFade = false) (h : s.activeIsAction = true) :
    (run s events).activeIsAction = true := by
  induction events generalizing s with
  | nil => exact h
  | cons e rest ih =>
    rw [run_cons]
    exact ih (step s e) (fun x hx => he x (List.mem_cons_of_mem _ hx))
      (activeIsAction_step s e (he e (List.mem_cons_self _ _)) h)

theorem FadeInv_of_NoRamp (s : State) (h : NoRamp s) (hact : s.activeIsAction = true) :
    FadeInv s := by
  refine ⟨hact, ?_⟩
  intro r a ha
  have := h r a ha
  simp [AnimationAction.hasFadeIn, AnimationAction.hasFadeOut, this]

theorem FadeInv_fadeToAction (name : String) (d : ℚ) (s : State)
    (hname : name ∉ objectPrototypeKeys) (h : FadeInv s) :
    FadeInv (fadeToAction name d s).state := by
  have hget := getAction_not_inherited s.actions name hname
  cases hown : ownAction s.actions name with
  | none =>
    have hreg : getAction s.actions name = none := by rw [hget, hown]; rfl
    have : fadeToAction name d s = ⟨s, false⟩ := by simp [fadeToAction, hreg]
    rw [this]; exact h
  | some target =>
    have hreg : getAction s.actions name = some (Value.action target) := by
      rw [hget, hown]; rfl
    by_cases hact : s.activeAction = some (Value.action target)
    · have : fadeToAction name d s = ⟨s, false⟩ := by simp [fadeToAction, hreg, hact]
      rw [this]; exact h
    · obtain ⟨_, hnew, _, _, hlen, hprev, htarget, hother⟩ :=
        fadeToAction_effect s name d target hreg hact h.1
      refine ⟨by simp [State.activeIsAction, hnew], ?_⟩
      intro r b hb
      rw [hnew]
      by_cases hrt : r = target
      · subst hrt
        cases ha : s.action? r with
        | none =>
          have hnone : (fadeToAction name d s).state.action? r = none := by
            simp only [State.action?] at ha ⊢
            rw [List.getElem?_eq_none_iff] at ha ⊢
            omega
          rw [hnone] at hb; cases hb
        | some a =>
          rw [htarget a ha] at hb
          cases hb
          exact ⟨fun _ => rfl, fun hc => by norm_num [AnimationAction.hasFadeOut] at hc⟩
      · have hne2 : some (Value.action target) ≠ some (Value.action r) := by
          intro hc
          injection hc with hc
          injection hc with hc
          exact hrt hc.symm
        by_cases hrp : s.activeAction = some (Value.action r)
        · cases ha : s.action? r with
          | none =>
            have hnone : (fadeToAction name d s).state.action? r = none := by
              simp only [State.action?] at ha ⊢
              rw [List.getElem?_eq_none_iff] at ha ⊢
              omega
            rw [hnone] at hb; cases hb
          | some a =>
            rw [hprev r a hrp ha] at hb
            cases hb
            exact ⟨fun hc => by norm_num [AnimationAction.hasFadeIn] at hc, fun _ => hne2⟩
        · rw [hother r hrt hrp] at hb
          exact ⟨fun hc => absurd ((h.2 r b hb).1 hc) hrp, fun _ => hne2⟩

theorem animationAssets_not_inherited : ∀ n ∈ animationAssets, n ∉ objectPrototypeKeys := by
  decide

theorem FadeInv_onKeyDown (key : String) (s : State) (h : FadeInv s) :
    FadeInv (onKeyDown key s).state := by
  unfold onKeyDown
  split
  · exact h
  · split
    · split
      · rename_i name hname
        exact FadeInv_fadeToAction _ _ s
          (animationAssets_not_inherited name (List.getElem?_mem hname)) h
      · exact h
    · exact h

theorem FadeInv_step (s : State) (e : Event) (he : e.isIndexZeroLoad = false)
    (hf : e.fadesInherited = false) (h : FadeInv s) : FadeInv (step s e) := by
  cases e with
  | loaded request fbx =>
    have hidx : request.index ≠ 0 := by simpa [Event.isIndexZeroLoad] using he
    have hactive : (step s (Event.loaded request fbx)).activeAction = s.activeAction := by
      obtain ⟨anims⟩ := fbx
      cases anims with
      | nil => simp [step, loadCallback]
      | cons clip cs =>
        obtain ⟨s2, hs2, _, _, _, _, _, _, hnonzero⟩ :=
          loadCallback_effect s request.assetName request.index clip cs
        have hstep : step s (Event.loaded request ⟨clip :: cs⟩) = s2 := by simp [step, hs2]
        rw [hstep]
        exact (hnonzero hidx).1
    refine ⟨by simpa [State.activeIsAction, hactive] using h.1, ?_⟩
    intro r b hb
    rw [hactive]
    rcases loaded_action s request fbx r b hb with h1 | h1
    · exact h.2 r b h1
    · simp [AnimationAction.hasFadeIn, AnimationAction.hasFadeOut, h1.2]
  | fade name d =>
    have hname : name ∉ objectPrototypeKeys := by simpa [Event.fadesInherited] using hf
    exact FadeInv_fadeToAction name d s hname h
  | keyDown key => exact FadeInv_onKeyDown key s h
  | frame delta =>
    refine ⟨h.1, ?_⟩
    intro r b hb
    obtain ⟨a, ha, hr⟩ := frame_ramp delta s r b hb
    have hact : (step s (Event.frame delta)).activeAction = s.activeAction := rfl
    rw [hact]
    exact ⟨fun hc => (h.2 r a ha).1 (hasFadeIn_of_ramp a b hr hc),
      fun hc => (h.2 r a ha).2 (hasFadeOut_of_ramp a b hr hc)⟩

theorem FadeInv_run (events : List Event) (s : State)
    (he : ∀ e ∈ events, e.isIndexZeroLoad = false ∧ e.fadesInherited = false)
    (h : FadeInv s) : FadeInv (run s events) := by
  induction events generalizing s with
  | nil => exact h
  | cons e rest ih =>
    rw [run_cons]
    exact ih (step s e) (fun x hx => he x (List.mem_cons_of_mem _ hx))
      (FadeInv_step s e (he e (List.mem_cons_self _ _)).1 (he e (List.mem_cons_self _ _)).2 h)

theorem run_append (s : State) (pre post : List Event) :
    run s (pre ++ post) = run (run s pre) post := by
  simp [run, List.foldl_append]

theorem length_le_one_of_all_eq (l : List Nat) (hnd : l.Nodup) (x : Nat)
    (h : ∀ r ∈ l, r = x) : l.length ≤ 1 := by
  match l, hnd, h with
  | [], _, _ => simp
  | [_], _, _ => simp
  | a :: b :: rest, hnd, h =>
    have ha : a = x := h a (by simp)
    have hb : b = x := h b (by simp)
    have hne : a ≠ b := by
      intro e
      have := (List.nodup_cons.1 hnd).1
      exact this (by simp [e])
    exact absurd (ha.trans hb.symm) hne

theorem mem_fadeInsInFlight (s : State) (r : Nat) (h : r ∈ fadeInsInFlight s) :
    ∃ a, s.action? r = some a ∧ a.hasFadeIn = true := by
  simp only [fadeInsInFlight, List.mem_filter] at h
  cases ha : s.action? r with
  | none => simp [ha] at h
  | some a =>
    simp only [ha, Bool.and_eq_true] at h
    exact ⟨a, rfl, h.2.1⟩

theorem mem_fadeOutsInFlight (s : State) (r : Nat) (h : r ∈ fadeOutsInFlight s) :
    ∃ a, s.action? r = some a ∧ a.hasFadeOut = true := by
  simp only [fadeOutsInFlight, List.mem_filter] at h
  cases ha : s.action? r with
  | none => simp [ha] at h
  | some a =>
    simp only [ha, Bool.and_eq_true] at h
    exact ⟨a, rfl, h.2.1⟩

theorem fadeInsInFlight_le_one (s : State) (h : FadeInv s) :
    (fadeInsInFlight s).length ≤ 1 := by
  have hnd : (fadeInsInFlight s).Nodup := (List.nodup_range _).filter _
  cases hact : s.activeAction with
  | none =>
    have hempty : fadeInsInFlight s = [] := by
      apply List.eq_nil_iff_forall_not_mem.2
      intro r hr
      obtain ⟨a, ha, hin⟩ := mem_fadeInsInFlight s r hr
      have := (h.2 r a ha).1 hin
      rw [hact] at this
      cases this
    simp [hempty]
  | some v =>
    cases v with
    | inherited n =>
      have := h.1
      simp [State.activeIsAction, hact] at this
    | action x =>
      apply length_le_one_of_all_eq _ hnd x
      intro r hr
      obtain ⟨a, ha, hin⟩ := mem_fadeInsInFlight s r hr
      have := (h.2 r a ha).1 hin
      rw [hact] at this
      injection this with this
      injection this with this
      exact this.symm

/-- C7 as amended. In every state reached from the initial state by load completions and
frames, followed by any sequence of key presses, frames, load completions of list indices
other than 0 and `fadeToAction` calls with names that are not property names of
`Object.prototype`: at most one action has a fade-in in flight, an action with a fade-in in
flight is the active action, and an action with a fade-out in flight is not the active
action.  (How many fade-outs are in flight is not bounded.) -/
theorem one_fade_in_on_active (pre post : List Event)
    (hpre : ∀ e ∈ pre, e.isFade = false)
    (hpost : ∀ e ∈ post, e.isIndexZeroLoad = false ∧ e.fadesInherited = false) :
    (fadeInsInFlight (run initialState (pre ++ post))).length ≤ 1 ∧
    (∀ r ∈ fadeInsInFlight (run initialState (pre ++ post)),
      (run initialState (pre ++ post)).activeAction = some (Value.action r)) ∧
    (∀ r ∈ fadeOutsInFlight (run initialState (pre ++ post)),
      (run initialState (pre ++ post)).activeAction ≠ some (Value.action r)) := by
  have hinv : FadeInv (run initialState (pre ++ post)) := by
    rw [run_append]
    exact FadeInv_run post _ hpost
      (FadeInv_of_NoRamp _ (NoRamp_run pre initialState hpre NoRamp_initialState)
        (activeIsAction_run pre initialState hpre rfl))
  refine ⟨fadeInsInFlight_le_one _ hinv, ?_, ?_⟩
  · intro r hr
    obtain ⟨a, ha, hin⟩ := mem_fadeInsInFlight _ r hr
    exact (hinv.2 r a ha).1 hin
  · intro r hr
    obtain ⟨a, ha, hout⟩ := mem_fadeOutsInFlight _ r hr
    exact (hinv.2 r a ha).2 hout

/-- C7, witness: the first three assets load in list order, then two fades follow each other
at once. -/
theorem one_fade_in_on_active_witness :
    (fadeInsInFlight (run initialState (threeLoaded ++ twoQuickFades))).length ≤ 1 ∧
    (∀ r ∈ fadeInsInFlight (run initialState (threeLoaded ++ twoQuickFades)),
      (run initialState (threeLoaded ++ twoQuickFades)).activeAction = some (Value.action r)) ∧
    (∀ r ∈ fadeOutsInFlight (run initialState (threeLoaded ++ twoQuickFades)),
      (run initialState (threeLoaded ++ twoQuickFades)).activeAction ≠ some (Value.action r)) :=
  one_fade_in_on_active threeLoaded twoQuickFades (by decide) (by decide)

/-- C7, counterexample. With "Texting While Standing" active and three animations
registered, `fadeToAction("Swimming", 0.25)` followed at once by
`fadeToAction("Chapa-Giratoria", 0.25)` leaves two fade-outs in flight, on the actions of
"Texting While Standing" and of "Swimming".  When the asset of index 0 finishes loading
between two fades, two fade-ins are in flight.  And after a call with the inherited name
"toString" between two fades, the active action has a fade-out in flight and no fade-in. -/
theorem two_fade_outs_in_flight :
    completedLoads threeLoaded = (loadAnimations animationAssets).take 3 ∧
    getAction (run initialState threeLoaded).actions "Texting While Standing" =
      some (Value.action 0) ∧
    getAction (run initialState threeLoaded).actions "Swimming" = some (Value.action 1) ∧
    getAction (run initialState threeLoaded).actions "Chapa-Giratoria" =
      some (Value.action 2) ∧
    (run initialState threeLoaded).activeAction = some (Value.action 0) ∧
    fadeOutsInFlight (run initialState (threeLoaded ++ twoQuickFades)) = [0, 1] ∧
    ¬ (fadeOutsInFlight (run initialState (threeLoaded ++ twoQuickFades))).length ≤ 1 ∧
    fadeInsInFlight (run initialState lateDefaultThenFade) = [0, 1] ∧
    ¬ (fadeInsInFlight (run initialState lateDefaultThenFade)).length ≤ 1 ∧
    (run initialState (threeLoaded ++ fadeThroughToString)).activeAction =
      some (Value.action 0) ∧
    fadeOutsInFlight (run initialState (threeLoaded ++ fadeThroughToString)) = [0, 1] ∧
    fadeInsInFlight (run initialState (threeLoaded ++ fadeThroughToString)) = [] := by
  decide!

/-- C8, the failing run. The asset of index 1 loads, the user presses "2", then the asset of
index 0 loads: its callback makes the new action active and plays it, and the action of
"Swimming" receives no `fadeOut`.  Two frames later both actions run at effective weight 1
and both settle at weight 1. -/
theorem late_default_leaves_two_at_full_weight :
    (∀ r ∈ completedLoads lateDefault, r ∈ loadAnimations animationAssets) ∧
    (run initialState lateDefault).activeAction = some (Value.action 1) ∧
    getAction (run initialState lateDefault).actions "Swimming" = some (Value.action 0) ∧
    getAction (run initialState lateDefault).actions "Texting While Standing" =
      some (Value.action 1) ∧
    ((run initialState lateDefault).action? 0).map (fun a => a.calls) =
      some [Call.reset, Call.setEffectiveTimeScale 1, Call.setEffectiveWeight 1,
        Call.fadeIn (1 / 4), Call.play] ∧
    ((run initialState lateDefault).action? 1).map (fun a => a.calls) = some [Call.play] ∧
    ((run initialState lateDefault).action? 0).map (fun a => a.effectiveWeight) = some 1 ∧
    ((run initialState lateDefault).action? 1).map (fun a => a.effectiveWeight) = some 1 ∧
    fullWeightTargets (run initialState lateDefault) = [0, 1] := by
  decide!

/-! ## Blend weights during a cross-fade -/

theorem evaluate_ramp (now d v0 v1 t : ℚ) (hd : 0 < d) (h0 : 0 ≤ t) (ht : t ≤ d) :
    Interpolant.evaluate ⟨now, v0, now + d, v1⟩ (now + t) = v0 * (1 - t / d) + v1 * (t / d) := by
  unfold Interpolant.evaluate
  have h1 : ¬ now + t < now := by linarith
  simp only [h1, if_false]
  by_cases hlast : now + d ≤ now + t
  · have htd : t = d := by linarith
    subst htd
    have hdd : t / t = 1 := div_self (ne_of_gt hd)
    simp [hdd]
  · simp only [hlast, if_false]
    have e1 : now + t - now = t := by ring
    have e2 : now + d - now = d := by ring
    rw [e1, e2]

theorem animate_time (delta : ℚ) (s : State) :
    (animate delta s).mixer.time = s.mixer.time + delta := rfl

/-- One frame that does not pass the end of a ramp keeps the ramp and sets the effective
weight to the weight times the ramp's value. -/
theorem update_within_ramp (act : AnimationAction) (i : Interpolant) (time : ℚ)
    (hen : act.enabled = true) (hramp : act.weightInterpolant = some i) (ht : time ≤ i.t1) :
    (act.update time).enabled = true ∧ (act.update time).scheduled = act.scheduled ∧
    (act.update time).weight = act.weight ∧ (act.update time).weightInterpolant = some i ∧
    (act.update time).effectiveWeight = act.weight * i.evaluate time := by
  have hnot : ¬ time > i.t1 := not_lt.2 ht
  simp [AnimationAction.update, AnimationAction.updateTimeScale, AnimationAction.updateWeight,
    hen, hramp, hnot]

/-- Frames that together do not pass the end of a ramp: the action keeps the ramp, and after
the last frame its effective weight is its weight times the ramp's value at the clock. -/
theorem frames_within_ramp (deltas : List ℚ) (s : State) (r : Nat) (act : AnimationAction)
    (i : Interpolant) (hact : s.action? r = some act) (hsch : act.scheduled = true)
    (hen : act.enabled = true) (hramp : act.weightInterpolant = some i)
    (hnn : ∀ x ∈ deltas, 0 ≤ x) (hsum : s.mixer.time + deltas.sum ≤ i.t1) :
    (run s (deltas.map Event.frame)).mixer.time = s.mixer.time + deltas.sum ∧
    ∃ act2, (run s (deltas.map Event.frame)).action? r = some act2 ∧
      act2.weight = act.weight ∧
      (deltas ≠ [] → act2.effectiveWeight = act.weight * i.evaluate (s.mixer.time + deltas.sum)) := by
  induction deltas generalizing s act with
  | nil => exact ⟨by simp [run], act, hact, rfl, fun h => absurd rfl h⟩
  | cons x rest ih =>
    have hx : 0 ≤ x := hnn x (List.mem_cons_self _ _)
    have hrest : ∀ y ∈ rest, 0 ≤ y := fun y hy => hnn y (List.mem_cons_of_mem _ hy)
    have hrestsum : 0 ≤ rest.sum := List.sum_nonneg hrest
    rw [List.sum_cons] at hsum
    have hstep : step s (Event.frame x) = animate x s := rfl
    have hact1 : (animate x s).action? r = some (act.update (s.mixer.time + x)) := by
      rw [action?_animate, hact]
      simp [hsch]
    obtain ⟨u1, u2, u3, u4, u5⟩ :=
      update_within_ramp act i (s.mixer.time + x) hen hramp (by linarith)
    have hsum1 : (animate x s).mixer.time + rest.sum ≤ i.t1 := by
      rw [animate_time]; linarith
    obtain ⟨ihtime, act2, ih1, ih2, ih3⟩ :=
      ih (animate x s) (act.update (s.mixer.time + x)) hact1 (by rw [u2]; exact hsch) u1 u4
        hrest hsum1
    simp only [List.map_cons, run_cons, hstep, List.sum_cons]
    refine ⟨by rw [ihtime, animate_time]; ring, act2, ih1, by rw [ih2, u3], fun _ => ?_⟩
    cases rest with
    | nil =>
      simp only [List.map_nil, run, List.foldl_nil] at ih1
      rw [hact1] at ih1
      cases ih1
      simpa using u5
    | cons y ys =>
      have := ih3 (List.cons_ne_nil _ _)
      rw [this, u3, animate_time]
      congr 2
      ring

/-- The blend weights after an accepted fade from a running action of weight 1, once frames
of total duration `t` within the fade have been drawn. -/
theorem blendWeight_crossfade (s : State) (name : String) (d : ℚ) (a b : Nat)
    (actA actB : AnimationAction)
    (hactive : s.activeAction = some (Value.action a)) (hA : s.action? a = some actA)
    (hplaying : actA.scheduled = true) (henabled : actA.enabled = true)
    (hweight : actA.weight = 1)
    (hreg : getAction s.actions name = some (Value.action b)) (hB : s.action? b = some actB) (hab : a ≠ b)
    (hd : 0 < d) (deltas : List ℚ) (hne : deltas ≠ []) (hnn : ∀ x ∈ deltas, 0 ≤ x)
    (hsum : deltas.sum ≤ d) :
    blendWeight (run (fadeToAction name d s).state (deltas.map Event.frame)) a = 1 - deltas.sum / d ∧
    blendWeight (run (fadeToAction name d s).state (deltas.map Event.frame)) b = deltas.sum / d := by
  have hnb : s.activeAction ≠ some (Value.action b) := by
    rw [hactive]
    intro e
    injection e with e
    injection e with e
    exact hab e
  have hprevious : s.activeIsAction = true := by simp [State.activeIsAction, hactive]
  obtain ⟨_, _, _, htime, _, hprev, htarget, _⟩ :=
    fadeToAction_effect s name d b hreg hnb hprevious
  have h0 : 0 ≤ deltas.sum := List.sum_nonneg hnn
  constructor
  · obtain ⟨_, act2, h1, _, h3⟩ :=
      frames_within_ramp deltas (fadeToAction name d s).state a _
        ⟨s.mixer.time, 1, s.mixer.time + d, 0⟩ (hprev a actA hactive hA) hplaying henabled rfl
        hnn (by rw [htime]; simpa using hsum)
    simp only [blendWeight, h1, h3 hne, hweight, htime, evaluate_ramp _ _ _ _ _ hd h0 hsum]
    ring
  · obtain ⟨_, act2, h1, _, h3⟩ :=
      frames_within_ramp deltas (fadeToAction name d s).state b _
        ⟨s.mixer.time, 0, s.mixer.time + d, 1⟩ (htarget actB hB) rfl rfl rfl
        hnn (by rw [htime]; simpa using hsum)
    simp only [blendWeight, h1, h3 hne, htime, evaluate_ramp _ _ _ _ _ hd h0 hsum]
    ring


theorem animate_eq_run (t : ℚ) (s : State) : animate t s = run s ([t].map Event.frame) := rfl

/-- C9. Two distinct registered animations, A active, running, enabled, at weight 1, and a
fade to B of duration `d > 0`.  After one frame of `d/2` both blend weights are nonzero (both
are 1/2).  Over frame offsets `t` in `[0, d]` the weight of A does not increase and the
weight of B does not decrease, and the two weights add up to 1.  The same values result when
the time `t` is drawn as several frames: the weight of A is `1 - t/d` and that of B is
`t/d`. -/
theorem crossfade_blend_weights (s : State) (name : String) (d : ℚ) (a b : Nat)
    (actA actB : AnimationAction)
    (hactive : s.activeAction = some (Value.action a)) (hA : s.action? a = some actA)
    (hplaying : actA.scheduled = true) (henabled : actA.enabled = true)
    (hweight : actA.weight = 1)
    (hreg : getAction s.actions name = some (Value.action b)) (hB : s.action? b = some actB) (hab : a ≠ b)
    (hd : 0 < d) :
    blendWeight (animate (d / 2) (fadeToAction name d s).state) a ≠ 0 ∧
    blendWeight (animate (d / 2) (fadeToAction name d s).state) b ≠ 0 ∧
    (∀ t1 t2, 0 ≤ t1 → t1 ≤ t2 → t2 ≤ d →
      blendWeight (animate t2 (fadeToAction name d s).state) a ≤
        blendWeight (animate t1 (fadeToAction name d s).state) a ∧
      blendWeight (animate t1 (fadeToAction name d s).state) b ≤
        blendWeight (animate t2 (fadeToAction name d s).state) b) ∧
    (∀ t, 0 ≤ t → t ≤ d →
      blendWeight (animate t (fadeToAction name d s).state) a +
        blendWeight (animate t (fadeToAction name d s).state) b = 1) ∧
    (∀ deltas : List ℚ, deltas ≠ [] → (∀ x ∈ deltas, 0 ≤ x) → deltas.sum ≤ d →
      blendWeight (run (fadeToAction name d s).state (deltas.map Event.frame)) a =
        1 - deltas.sum / d ∧
      blendWeight (run (fadeToAction name d s).state (deltas.map Event.frame)) b =
        deltas.sum / d) := by
  have hframes := blendWeight_crossfade s name d a b actA actB hactive hA hplaying henabled
    hweight hreg hB hab hd
  have hone : ∀ t, 0 ≤ t → t ≤ d →
      blendWeight (animate t (fadeToAction name d s).state) a = 1 - t / d ∧
      blendWeight (animate t (fadeToAction name d s).state) b = t / d := by
    intro t h0 ht
    have := hframes [t] (List.cons_ne_nil _ _) (by simpa using h0) (by simpa using ht)
    simpa [animate_eq_run] using this
  have hdne : d ≠ 0 := ne_of_gt hd
  have hhalf : d / 2 / d = 1 / 2 := by field_simp; ring
  refine ⟨?_, ?_, ?_, ?_, hframes⟩
  · rw [(hone (d / 2) (by linarith) (by linarith)).1, hhalf]
    norm_num
  · rw [(hone (d / 2) (by linarith) (by linarith)).2, hhalf]
    norm_num
  · intro t1 t2 h0 h12 h2
    rw [(hone t1 h0 (le_trans h12 h2)).1, (hone t1 h0 (le_trans h12 h2)).2,
      (hone t2 (le_trans h0 h12) h2).1, (hone t2 (le_trans h0 h12) h2).2]
    have hdiv : t1 / d ≤ t2 / d := div_le_div_of_nonneg_right h12 (le_of_lt hd)
    constructor <;> linarith
  · intro t h0 ht
    rw [(hone t h0 ht).1, (hone t h0 ht).2]
    ring

/-- C9, witness: "Texting While Standing" active at weight 1, a fade to "Swimming" of a
quarter second, one frame of an eighth of a second: both weights are 1/2. -/
theorem crossfade_blend_weights_witness :
    textingActive.activeAction = some (Value.action 0) ∧
    getAction textingActive.actions "Swimming" = some (Value.action 1) ∧
    blendWeight (animate (1 / 8) (fadeToAction "Swimming" (1 / 4) textingActive).state) 0 =
      1 / 2 ∧
    blendWeight (animate (1 / 8) (fadeToAction "Swimming" (1 / 4) textingActive).state) 1 =
      1 / 2 ∧
    blendWeight (animate ((1 / 4) / 2) (fadeToAction "Swimming" (1 / 4) textingActive).state)
      0 ≠ 0 :=
  ⟨by decide!, by decide!, by decide!, by decide!,
    (crossfade_blend_weights textingActive "Swimming" (1 / 4) 0 1
      { AnimationAction.create ⟨"mixamo.com"⟩ with scheduled := true, calls := [Call.play] }
      (AnimationAction.create ⟨"mixamo.com"⟩)
      (by decide!) (by decide!) rfl rfl rfl (by decide!) (by decide!) (by decide)
      (by norm_num)).1⟩

/-- C1, witness: the key "2" names "Swimming", which has not loaded; the fade changes
nothing. -/
theorem fadeToAction_unregistered_witness :
    keys swimmingMissing.actions = ["Texting While Standing", "Chapa-Giratoria"] ∧
    fadeToAction "Swimming" (1 / 4) swimmingMissing = ⟨swimmingMissing, false⟩ :=
  ⟨by decide!,
    fadeToAction_unregistered swimmingMissing "Swimming" (1 / 4) (by decide!) (by decide)⟩

/-- C1, counterexample. "toString" is not a key of the registry, yet `actions["toString"]` is
the function every object inherits: the call reassigns `activeAction` to it, sends
`fadeOut(0.25)` to the action that was active, and raises. -/
theorem fadeToAction_inherited_name_changes_state :
    "toString" ∉ keys textingActive.actions ∧
    textingActive.activeAction = some (Value.action 0) ∧
    (textingActive.action? 0).map (fun a => a.calls) = some [Call.play] ∧
    (fadeToAction "toString" (1 / 4) textingActive).state ≠ textingActive ∧
    (fadeToAction "toString" (1 / 4) textingActive).state.activeAction =
      some (Value.inherited "toString") ∧
    ((fadeToAction "toString" (1 / 4) textingActive).state.action? 0).map (fun a => a.calls) =
      some [Call.play, Call.fadeOut (1 / 4)] ∧
    (fadeToAction "toString" (1 / 4) textingActive).threw = true := by
  decide!

/-- C2, witness: a fade to "Texting While Standing" while it is the active action. -/
theorem fadeToAction_active_witness :
    textingActive.activeAction = some (Value.action 0) ∧
    getAction textingActive.actions "Texting While Standing" = some (Value.action 0) ∧
    fadeToAction "Texting While Standing" (1 / 4) textingActive = ⟨textingActive, false⟩ :=
  ⟨by decide!, by decide!,
    (fadeToAction_active textingActive "Texting While Standing" (1 / 4) (Value.action 0)
      (by decide!) (by decide!)).1⟩

/-- C3, counterexample. In the state a call with the inherited name "toString" leaves,
`activeAction` holds a function.  A fade to the registered "Swimming" then reassigns
`activeAction` and raises at `previousAction.fadeOut`: the action of "Swimming" receives
neither `reset` nor `fadeIn` nor `play`. -/
theorem fadeToAction_from_inherited_value_raises :
    toStringActive.activeAction = some (Value.inherited "toString") ∧
    getAction toStringActive.actions "Swimming" = some (Value.action 1) ∧
    (toStringActive.action? 1).map (fun a => a.calls) = some [] ∧
    (fadeToAction "Swimming" (1 / 4) toStringActive).threw = true ∧
    (fadeToAction "Swimming" (1 / 4) toStringActive).state.activeAction =
      some (Value.action 1) ∧
    ((fadeToAction "Swimming" (1 / 4) toStringActive).state.action? 1).map
      (fun a => a.calls) = some [] := by
  decide!

/-- C3, witness: a fade from "Texting While Standing" to "Swimming". -/
theorem fadeToAction_accepted_witness :
    getAction textingActive.actions "Swimming" = some (Value.action 1) ∧
    textingActive.activeAction ≠ some (Value.action 1) ∧
    textingActive.activeIsAction = true ∧
    (fadeToAction "Swimming" (1 / 4) textingActive).threw = false ∧
    (fadeToAction "Swimming" (1 / 4) textingActive).state.activeAction =
      some (Value.action 1) ∧
    ((fadeToAction "Swimming" (1 / 4) textingActive).state.action? 0).map (fun a => a.calls) =
      some [Call.play, Call.fadeOut (1 / 4)] ∧
    ((fadeToAction "Swimming" (1 / 4) textingActive).state.action? 1).map (fun a => a.calls) =
      some [Call.reset, Call.setEffectiveTimeScale 1, Call.setEffectiveWeight 1,
        Call.fadeIn (1 / 4), Call.play] ∧
    (fadeToAction "Swimming" (1 / 4) textingActive).state.action? 2 =
      textingActive.action? 2 :=
  ⟨by decide!, by decide!, by decide!,
    (fadeToAction_accepted textingActive "Swimming" (1 / 4) 1 (by decide!) (by decide!)
      (by decide!)).1,
    (fadeToAction_accepted textingActive "Swimming" (1 / 4) 1 (by decide!) (by decide!)
      (by decide!)).2.1,
    by decide!, by decide!,
    (fadeToAction_accepted textingActive "Swimming" (1 / 4) 1 (by decide!) (by decide!)
      (by decide!)).2.2.2.2.2.2.2 2 (by decide) (by decide!)⟩

end Mail
